import Mathlib

/-!
Shallow embedding of the Cobweb incremental concept-formation tree
(`cobweb.py`): the node data structure with its attribute/value count
statistics, the category-utility objective, the hypothetical-edit
evaluators, and the iterative `cobweb` / `cobweb_categorize` drivers.

Modelling conventions:
* Attributes and values are strings; an instance is the association list of
  a Python dict (`attr -> value`), in insertion order.
* `av_counts` is an insertion-ordered association list
  `attr -> (value -> count)`, with first-occurrence lookup and update,
  mirroring dict semantics.
* Machine floats are modelled as exact rationals (`ℚ`); division by the
  count of a node is total in `ℚ` (0 where Python would raise), and is only
  exercised on positive counts, as in the source.
* Python object identity (`==` on nodes, `list.remove`) is modelled by
  list indices into `children`.
* The copy-constructor idiom (`temp.update_counts_from_node(self)` on a
  fresh node) is a value copy in a functional embedding, so it appears as
  reuse of the copied node's fields.
* The in-place `while` loop of `cobweb` is modelled with explicit fuel;
  `size` fuel is proved sufficient (`cobwebF_isSome_of_size_le`).
-/

/-! ### Attribute/value count tables -/

abbrev Attr := String

abbrev Val := String

/-- An instance: a Python dict `{attr: value, ...}` as an association list. -/
abbrev Instance := List (Attr × Val)

/-- First-occurrence lookup with a default, mirroring `dict.get(k, d)`. -/
def lookupD {α : Type} : List (String × α) → String → α → α
  | [], _, d => d
  | (k', v) :: r, k, d => if k' = k then v else lookupD r k d

/-- Optional first-occurrence lookup, mirroring `k in dict` + `dict[k]`. -/
def lookupOpt {α : Type} : List (String × α) → String → Option α
  | [], _ => none
  | (k', v) :: r, k => if k' = k then some v else lookupOpt r k

/-- Update the first occurrence of key `k` by `f` (starting from default `d`
when the key is absent, in which case the entry is appended at the end, as a
Python dict inserts new keys at the end). -/
def upsert {α : Type} : List (String × α) → String → (α → α) → α → List (String × α)
  | [], k, f, d => [(k, f d)]
  | (k', v) :: r, k, f, d => if k' = k then (k, f v) :: r else (k', v) :: upsert r k f d

/-- The `av_counts` table of a node. -/
abbrev AV := List (Attr × List (Val × Nat))

/-- Stored count for the pair `(a, v)` (0 when absent). -/
def avGet (A : AV) (a : Attr) (v : Val) : Nat := lookupD (lookupD A a []) v 0

/-- Add `k` to the stored count of `(a, v)`: one step of
`update_counts_from_node`. -/
def avIncBy (A : AV) (a : Attr) (v : Val) (k : Nat) : AV :=
  upsert A a (fun vs => upsert vs v (fun c => c + k) 0) []

/-- Add 1 to the stored count of `(a, v)`: one step of `increment_counts`. -/
def avInc (A : AV) (a : Attr) (v : Val) : AV := avIncBy A a v 1

/-- The `av_counts` part of `increment_counts(instance)`. -/
def avIncInst (A : AV) (i : Instance) : AV := i.foldl (fun acc p => avInc acc p.1 p.2) A

/-- The `av_counts` of a fresh node holding exactly one instance. -/
def instAv (i : Instance) : AV := avIncInst [] i

/-- The `av_counts` part of `update_counts_from_node(node)`: fold `node`'s
counts into `A`. -/
def avAdd (A B : AV) : AV :=
  B.foldl (fun acc p => p.2.foldl (fun acc2 q => avIncBy acc2 p.1 q.1 q.2) acc) A

/-- Well-formedness that every table reachable in the source enjoys: outer
keys are distinct and each inner value list has distinct keys (Python dicts
cannot hold duplicate keys). -/
def WfAV (A : AV) : Prop :=
  (A.map Prod.fst).Nodup ∧ ∀ p ∈ A, (p.2.map Prod.fst).Nodup

/-- Number of occurrences of the pair `(a, v)` in an instance. -/
def cntPair (i : Instance) (a : Attr) (v : Val) : Nat :=
  i.countP (fun p => p.1 == a && p.2 == v)

/-! ### The node data structure -/

/-- A Cobweb concept node: `count`, `av_counts`, `children`. The `parent`
back-reference and the gensym `concept_name` play no role in the claims and
are omitted (a functional tree needs no back-pointers). -/
inductive Node : Type where
  | mk : Nat → AV → List Node → Node

instance : Inhabited Node := ⟨.mk 0 [] []⟩

def Node.count : Node → Nat
  | .mk c _ _ => c

def Node.av : Node → AV
  | .mk _ A _ => A

def Node.children : Node → List Node
  | .mk _ _ ch => ch

/-- A freshly constructed tree: `count = 0`, empty `av_counts`, no children. -/
def freshNode : Node := .mk 0 [] []

/-- Number of concepts in the subtree (`num_concepts`). -/
def size : Node → Nat
  | .mk _ _ ch => 1 + (ch.attach.map (fun x => size x.1)).sum
decreasing_by
  simp only [Node.mk.sizeOf_spec]
  have := List.sizeOf_lt_of_mem x.2
  omega

/-- The class-level minimum category utility threshold (`Cobweb.min_cu`),
0.0 by default and never modified in the source. -/
def min_cu : ℚ := 0

/-! ### Category utility -/

/-- `expected_correct_guesses`: accumulates `prob * prob` over every stored
attribute/value pair. -/
def expected_correct_guesses (n : Node) : ℚ :=
  n.av.foldl
    (fun acc p => p.2.foldl
      (fun acc2 q => acc2 + ((q.2 : ℚ) / (n.count : ℚ)) * ((q.2 : ℚ) / (n.count : ℚ)))
      acc)
    0

/-- `category_utility`: 0.0 for a childless node, otherwise the accumulated
`P(child) * (ecg(child) - ecg(self))` divided by the number of children. -/
def category_utility (n : Node) : ℚ :=
  if n.children.length = 0 then 0
  else
    (n.children.foldl
      (fun acc c => acc + ((c.count : ℚ) / (n.count : ℚ)) *
        (expected_correct_guesses c - expected_correct_guesses n))
      0) / (n.children.length : ℚ)

/-! ### Hypothetical-edit evaluators

Each builds a throwaway parent whose children are childless count copies
(`temp_child` only receives counts in the source), applies one hypothetical
edit, and returns the parent's category utility. The child argument of the
source (`c == child`, object identity) is the index `i`. -/

/-- `cu_for_insert(child, instance)` for the child at index `i`. -/
def cu_for_insert (n : Node) (i : Nat) (inst : Instance) : ℚ :=
  category_utility (.mk (n.count + 1) (avIncInst n.av inst)
    (n.children.enum.map (fun p =>
      if p.1 = i then Node.mk (p.2.count + 1) (avIncInst p.2.av inst) []
      else Node.mk p.2.count p.2.av [])))

/-- `cu_for_new_child(instance)`. -/
def cu_for_new_child (n : Node) (inst : Instance) : ℚ :=
  category_utility (.mk (n.count + 1) (avIncInst n.av inst)
    ((n.children.map (fun c => Node.mk c.count c.av [])) ++ [.mk 1 (instAv inst) []]))

/-- `cu_for_merge(best1, best2, instance)` for children at indices `i, j`. -/
def cu_for_merge (n : Node) (i j : Nat) (inst : Instance) : ℚ :=
  category_utility (.mk (n.count + 1) (avIncInst n.av inst)
    (Node.mk ((n.children.getD i default).count + (n.children.getD j default).count + 1)
       (avIncInst (avAdd (n.children.getD i default).av (n.children.getD j default).av) inst) [] ::
     (n.children.enum.filter (fun p => ¬(p.1 = i ∨ p.1 = j))).map
       (fun p => Node.mk p.2.count p.2.av [])))

/-- `cu_for_split(best)` for the child at index `i`; the instance plays no
role, best is dropped and its children promoted in the throwaway copy. -/
def cu_for_split (n : Node) (i : Nat) : ℚ :=
  category_utility (.mk n.count n.av
    (((n.children.eraseIdx i) ++ (n.children.getD i default).children).map
      (fun c => Node.mk c.count c.av [])))

/-- `cu_for_fringe_split(instance)`: copy the node's counts (children are not
copied), push them into a child when `count > 0`
(`create_child_with_current_counts`), absorb the instance, add a new child
holding only the instance. -/
def cu_for_fringe_split (n : Node) (inst : Instance) : ℚ :=
  category_utility (.mk (n.count + 1) (avIncInst n.av inst)
    ((if 0 < n.count then [Node.mk n.count n.av []] else []) ++ [.mk 1 (instAv inst) []]))

/-! ### Choosing children and operations -/

/-- Maximum of a list of utilities (the value at the head of the
stable descending sort in `two_best_children`). -/
def maxQ : List ℚ → ℚ
  | [] => 0
  | x :: r => r.foldl max x

/-- The per-child insert utilities, in child order. -/
def childInsertCus (n : Node) (inst : Instance) : List ℚ :=
  (List.range n.children.length).map (fun i => cu_for_insert n i inst)

/-- The `(cu, child)` pairs sorted stably by cu descending, keeping only the
first two: the first maximal index, and the best among the rest (`None`
when there is a single child). Children are identified by index. -/
def twoBest (n : Node) (inst : Instance) : (ℚ × Nat) × Option (ℚ × Nat) :=
  let cus := childInsertCus n inst
  let m := maxQ cus
  let i1 := cus.indexOf m
  if n.children.length = 1 then ((m, i1), none)
  else
    let rest := cus.eraseIdx i1
    let m2 := maxQ rest
    let j := rest.indexOf m2
    ((m, i1), some (m2, if j < i1 then j else j + 1))

/-- `two_best_children(instance)`: raises `Exception("No children!")` on a
childless node. -/
def two_best_children (n : Node) (inst : Instance) :
    Except String ((ℚ × Nat) × Option (ℚ × Nat)) :=
  if n.children.length = 0 then .error "No children!" else .ok (twoBest n inst)

/-- The four candidate operations. In the source these are the strings
`'best'`, `'new'`, `'merge'`, `'split'`. -/
inductive Op : Type where
  | best | new | merge | split
deriving DecidableEq

/-- Position of each operation name in Python's lexicographic string order:
`'best' < 'merge' < 'new' < 'split'`. Tuples `(cu, name)` are compared
lexicographically, so this rank decides ties in `operations.sort`. -/
def opRank : Op → Nat
  | .best => 0
  | .merge => 1
  | .new => 2
  | .split => 3

/-- The strict order on `(utility, operation-name)` tuples used by
`operations.sort(reverse=True)`. -/
def opLt (x y : ℚ × Op) : Prop := x.1 < y.1 ∨ (x.1 = y.1 ∧ opRank x.2 < opRank y.2)

instance (x y : ℚ × Op) : Decidable (opLt x y) :=
  inferInstanceAs (Decidable (_ ∨ _))

/-- Maximum of `m :: l` in the tuple order: the element
`operations.sort(reverse=True)` places first. -/
def maxOpFrom : (ℚ × Op) → List (ℚ × Op) → (ℚ × Op)
  | m, [] => m
  | m, x :: r => maxOpFrom (if opLt m x then x else m) r

/-- The candidate list built by `get_best_operation` (default
`possible_ops`), in construction order. -/
def bestOps (n : Node) (inst : Instance) (b1 : ℚ × Nat) (b2 : Option (ℚ × Nat)) :
    List (ℚ × Op) :=
  [(b1.1, .best), (cu_for_new_child n inst, .new)]
  ++ (match b2 with
      | some p => if 2 < n.children.length then [(cu_for_merge n b1.2 p.2 inst, .merge)] else []
      | none => [])
  ++ (if (n.children.getD b1.2 default).children.length ≠ 0
      then [(cu_for_split n b1.2, .split)] else [])

/-- `get_best_operation(instance, best1, best2)`: the maximal `(cu, name)`
tuple of the candidate list. The list is never empty; the `[]` arm is
unreachable. -/
def get_best_operation (n : Node) (inst : Instance) (b1 : ℚ × Nat)
    (b2 : Option (ℚ × Nat)) : ℚ × Op :=
  match bestOps n inst b1 b2 with
  | [] => (0, .best)
  | x :: r => maxOpFrom x r

/-! ### Structural edits -/

/-- `merge(best1, best2)` for the children at indices `i, j` (`i ≠ j`): both
are removed, and a fresh node holding their combined counts, with them as
its two children, is appended. The second removal happens after the first,
hence the index shift. -/
def Node.merge (n : Node) (i j : Nat) : Node :=
  .mk n.count n.av
    (((n.children.eraseIdx i).eraseIdx (if i < j then j - 1 else j)) ++
     [.mk ((n.children.getD i default).count + (n.children.getD j default).count)
        (avAdd (n.children.getD i default).av (n.children.getD j default).av)
        [n.children.getD i default, n.children.getD j default]])

/-- `split(best)` for the child at index `i`: remove it and append its
children. -/
def Node.split (n : Node) (i : Nat) : Node :=
  .mk n.count n.av ((n.children.eraseIdx i) ++ (n.children.getD i default).children)

/-! ### The cobweb driver -/

/-- One run of the `cobweb` while-loop, with explicit fuel for the loop
iterations. Returns `(updated subtree, the node returned by cobweb)`, or
`none` when the fuel runs out (`size` fuel is proved sufficient below).

Branches, in source order:
* childless and fringe split does not beat `min_cu`: absorb the instance,
  return the leaf;
* childless otherwise: push the old counts into a child
  (`create_child_with_current_counts`, only when `count > 0`), absorb the
  instance, create and return a second child holding the instance (the
  remapping loop over node-valued instance entries is a no-op here, values
  being strings);
* the winning utility does not beat `min_cu`: absorb the instance, drop all
  children (`remove_reference` is a no-op), return the collapsed node;
* `best`: absorb the instance and iterate inside the best child;
* `new`: absorb the instance, create and return a child holding the instance;
* `merge`: absorb the instance, merge the two best children and iterate
  inside the merged child;
* `split`: promote the best child's children and iterate at the same node
  without absorbing the instance. -/
def cobwebF : Nat → Node → Instance → Option (Node × Node)
  | 0, _, _ => none
  | fuel + 1, n, inst =>
    if n.children.length = 0 then
      if cu_for_fringe_split n inst ≤ min_cu then
        let t := Node.mk (n.count + 1) (avIncInst n.av inst) []
        some (t, t)
      else
        let c2 := Node.mk 1 (instAv inst) []
        some (.mk (n.count + 1) (avIncInst n.av inst)
                ((if 0 < n.count then [Node.mk n.count n.av []] else []) ++ [c2]), c2)
    else
      let tb := twoBest n inst
      let act := get_best_operation n inst tb.1 tb.2
      if act.1 ≤ min_cu then
        let t := Node.mk (n.count + 1) (avIncInst n.av inst) []
        some (t, t)
      else if act.2 = Op.best then
        match cobwebF fuel (n.children.getD tb.1.2 default) inst with
        | none => none
        | some (c', r) =>
          some (.mk (n.count + 1) (avIncInst n.av inst) (n.children.set tb.1.2 c'), r)
      else if act.2 = Op.new then
        let c2 := Node.mk 1 (instAv inst) []
        some (.mk (n.count + 1) (avIncInst n.av inst) (n.children ++ [c2]), c2)
      else if act.2 = Op.merge then
        match tb.2 with
        | none => none
        | some p =>
          let b1n := n.children.getD tb.1.2 default
          let b2n := n.children.getD p.2 default
          let merged := Node.mk (b1n.count + b2n.count) (avAdd b1n.av b2n.av) [b1n, b2n]
          match cobwebF fuel merged inst with
          | none => none
          | some (m', r) =>
            some (.mk (n.count + 1) (avIncInst n.av inst)
                    (((n.children.eraseIdx tb.1.2).eraseIdx
                        (if tb.1.2 < p.2 then p.2 - 1 else p.2)) ++ [m']), r)
      else
        cobwebF fuel (Node.split n tb.1.2) inst

/-- `ifit(instance)` = `cobweb(instance)`: `(updated tree, returned node)`.
The fuel `size n` is sufficient (`cobwebF_isSome_of_size_le`), so the
default is never taken. -/
def ifit (n : Node) (inst : Instance) : Node × Node :=
  (cobwebF (size n) n inst).getD (n, n)

/-- Fold `ifit` over a list of instances, keeping the updated tree (`fit`). -/
def fitList (n : Node) (insts : List Instance) : Node :=
  insts.foldl (fun t i => (ifit t i).1) n

/-- One run of the `cobweb_categorize` while-loop, with explicit fuel:
descend into the best child until reaching a childless node, never mutating
anything. -/
def categorizeF : Nat → Node → Instance → Option Node
  | 0, _, _ => none
  | fuel + 1, n, inst =>
    if n.children.length = 0 then some n
    else categorizeF fuel (n.children.getD (twoBest n inst).1.2 default) inst

/-- `cobweb_categorize(instance)`; the fuel `size n` is sufficient
(`categorizeF_isSome_of_size_le`), so the default is never taken. -/
def cobweb_categorize (n : Node) (inst : Instance) : Node :=
  (categorizeF (size n) n inst).getD n

/-- `get_probability(attr, val)`: 0.0 when the attribute or value is absent,
otherwise the stored count over the node count. -/
def get_probability (n : Node) (a : Attr) (v : Val) : ℚ :=
  match lookupOpt n.av a with
  | none => 0
  | some vs =>
    match lookupOpt vs v with
    | none => 0
    | some c => (c : ℚ) / (n.count : ℚ)

/-! ### Predicates for the invariant claims -/

/-- `r` is a node of the tree rooted at `n` (`n` itself or a node of a
child's subtree). -/
inductive Subnode : Node → Node → Prop where
  | refl (n : Node) : Subnode n n
  | child {r k n : Node} : k ∈ n.children → Subnode r k → Subnode r n

/-- Local count conservation at one node, as `verify_counts` checks it. -/
def consOK (n : Node) : Prop :=
  n.children ≠ [] →
    (n.count = (n.children.map Node.count).sum ∧
     ∀ a v, avGet n.av a v = (n.children.map (fun k => avGet k.av a v)).sum)

/-- Count conservation everywhere in the tree. -/
def conserved (n : Node) : Prop := ∀ k, Subnode k n → consOK k

/-- Every node that has children has at least two, everywhere in the tree. -/
def branchy (n : Node) : Prop :=
  ∀ k, Subnode k n → (k.children ≠ [] → 2 ≤ k.children.length)

/-- Per-pair counts never exceed the node count (each absorbed instance
contributes at most 1 per attribute). -/
def avLeOK (n : Node) : Prop := ∀ a v, avGet n.av a v ≤ n.count

/-- The bundled reachable-state invariant threaded through the driver. -/
def ReachInv (n : Node) : Prop :=
  ∀ k, Subnode k n → consOK k ∧ (k.children ≠ [] → 2 ≤ k.children.length) ∧
    WfAV k.av ∧ avLeOK k

/-- Keys of an instance are distinct: every Python dict satisfies this. -/
def instKeysOk (i : Instance) : Prop := (i.map Prod.fst).Nodup

/-! ### Proof-support definitions -/

/-- Total count stored in an inner list for value `v` (first occurrences and
duplicates alike); coincides with the lookup on duplicate-free lists. -/
def vcnt (vs : List (Val × Nat)) (v : Val) : Nat :=
  (vs.map (fun q => if q.1 = v then q.2 else 0)).sum

/-- Sum of the squares of all stored counts (the numerator of
`expected_correct_guesses` over a common denominator). -/
def sqSum (A : AV) : ℚ :=
  (A.map (fun p => ((p.2.map (fun q => ((q.2 : Nat) : ℚ) ^ 2)).sum))).sum

/-! ### Concrete example trees -/

/-- A root of two equal childless children with empty tables: every candidate
operation of `get_best_operation` has utility 0 on the empty instance. -/
def c3Node : Node := .mk 2 [] [.mk 1 [] [], .mk 1 [] []]

/-- A leaf holding two observations of `color = red`. -/
def redLeaf : Node := .mk 2 [("color", [("red", 2)])] []

/-- A two-child root used in the merge/split round-trip witness. -/
def abNode : Node := .mk 2 [("a", [("x", 1), ("y", 1)])]
  [.mk 1 [("a", [("x", 1)])] [], .mk 1 [("a", [("y", 1)])] []]

/-! ### Lemmas: association tables -/

theorem lookupD_upsert {α : Type} (l : List (String × α)) (k k' : String) (f : α → α)
    (d d' : α) :
    lookupD (upsert l k f d) k' d' = if k = k' then f (lookupD l k d) else lookupD l k' d' := by
  induction l with
  | nil =>
    by_cases h : k = k' <;> simp [upsert, lookupD, h]
  | cons p r ih =>
    obtain ⟨k0, v0⟩ := p
    by_cases h0 : k0 = k
    · subst h0
      by_cases h : k0 = k' <;> simp [upsert, lookupD, h]
    · by_cases h : k0 = k'
      · subst h
        have hkk : ¬ (k = k0) := fun hc => h0 hc.symm
        simp [upsert, h0, lookupD, hkk]
      · simp [upsert, h0, lookupD, h, ih]

theorem lookupD_eq_default_of_not_mem {α : Type} (l : List (String × α)) (k : String)
    (d : α) (h : k ∉ l.map Prod.fst) : lookupD l k d = d := by
  induction l with
  | nil => simp [lookupD]
  | cons p r ih =>
    simp only [List.map_cons, List.mem_cons] at h
    push_neg at h
    have h1 : ¬ (p.1 = k) := fun hc => h.1 hc.symm
    cases p
    simp only [lookupD]
    simp only at h1
    simp [h1, ih h.2]

theorem mem_upsert {α : Type} {l : List (String × α)} {k : String} {f : α → α} {d : α}
    {p : String × α} (h : p ∈ upsert l k f d) :
    p ∈ l ∨ p = (k, f (lookupD l k d)) := by
  induction l with
  | nil =>
    simp only [upsert, List.mem_singleton] at h
    right; rw [h]; simp [lookupD]
  | cons q r ih =>
    obtain ⟨k0, v0⟩ := q
    by_cases h0 : k0 = k
    · subst h0
      simp only [upsert, if_pos rfl] at h
      rcases List.mem_cons.mp h with h1 | h1
      · right; rw [h1]; simp [lookupD]
      · exact Or.inl (List.mem_cons_of_mem _ h1)
    · simp only [upsert, if_neg h0] at h
      rcases List.mem_cons.mp h with h1 | h1
      · exact Or.inl (by rw [h1]; exact List.mem_cons_self _ _)
      · rcases ih h1 with h2 | h2
        · exact Or.inl (List.mem_cons_of_mem _ h2)
        · right
          rw [h2]
          simp [lookupD, h0]

theorem mem_map_fst_upsert {α : Type} {l : List (String × α)} {k a : String} {f : α → α}
    {d : α} (h : a ∈ (upsert l k f d).map Prod.fst) :
    a ∈ l.map Prod.fst ∨ a = k := by
  rcases List.mem_map.mp h with ⟨p, hp, rfl⟩
  rcases mem_upsert hp with h' | h'
  · exact Or.inl (List.mem_map.mpr ⟨p, h', rfl⟩)
  · right; rw [h']

theorem nodup_keys_upsert {α : Type} {l : List (String × α)} (k : String) (f : α → α)
    (d : α) (h : (l.map Prod.fst).Nodup) : ((upsert l k f d).map Prod.fst).Nodup := by
  induction l with
  | nil => simp [upsert]
  | cons p r ih =>
    obtain ⟨k0, v0⟩ := p
    simp only [List.map_cons, List.nodup_cons] at h
    by_cases h0 : k0 = k
    · subst h0
      simpa [upsert, List.nodup_cons] using h
    · simp only [upsert, h0, if_false, List.map_cons, List.nodup_cons]
      refine ⟨fun hc => ?_, ih h.2⟩
      rcases mem_map_fst_upsert hc with h' | h'
      · exact h.1 h'
      · exact h0 h'

theorem avGet_nil (a : Attr) (v : Val) : avGet [] a v = 0 := by
  simp [avGet, lookupD]

theorem avGet_eq_zero_of_not_mem_keys {A : AV} {a : Attr} (v : Val)
    (h : a ∉ A.map Prod.fst) : avGet A a v = 0 := by
  simp [avGet, lookupD_eq_default_of_not_mem A a [] h, lookupD]

theorem avGet_avIncBy (A : AV) (a : Attr) (v : Val) (k : Nat) (a' : Attr) (v' : Val) :
    avGet (avIncBy A a v k) a' v' = avGet A a' v' + (if a = a' ∧ v = v' then k else 0) := by
  unfold avGet avIncBy
  rw [lookupD_upsert]
  by_cases ha : a = a'
  · subst ha
    rw [if_pos rfl, lookupD_upsert]
    by_cases hv : v = v'
    · subst hv
      rw [if_pos rfl, if_pos ⟨rfl, rfl⟩]
    · rw [if_neg hv, if_neg (fun hc => hv hc.2), Nat.add_zero]
  · rw [if_neg ha, if_neg (fun hc => ha hc.1), Nat.add_zero]

theorem avGet_avInc (A : AV) (a : Attr) (v : Val) (a' : Attr) (v' : Val) :
    avGet (avInc A a v) a' v' = avGet A a' v' + (if a = a' ∧ v = v' then 1 else 0) := by
  simpa using avGet_avIncBy A a v 1 a' v'

theorem cntPair_nil (a : Attr) (v : Val) : cntPair [] a v = 0 := by
  simp [cntPair]

theorem cntPair_cons (p : Attr × Val) (r : Instance) (a : Attr) (v : Val) :
    cntPair (p :: r) a v = cntPair r a v + (if p.1 = a ∧ p.2 = v then 1 else 0) := by
  simp only [cntPair, List.countP_cons]
  by_cases h : p.1 = a ∧ p.2 = v
  · simp [h.1, h.2]
  · rw [if_neg h, if_neg]
    simp only [Bool.and_eq_true, beq_iff_eq]
    exact h

theorem avGet_avIncInst (i : Instance) : ∀ (A : AV) (a : Attr) (v : Val),
    avGet (avIncInst A i) a v = avGet A a v + cntPair i a v := by
  induction i with
  | nil => intro A a v; simp [avIncInst, cntPair]
  | cons p r ih =>
    intro A a v
    have h1 : avIncInst A (p :: r) = avIncInst (avInc A p.1 p.2) r := by
      simp [avIncInst]
    rw [h1, ih, avGet_avInc, cntPair_cons]
    by_cases h : p.1 = a ∧ p.2 = v <;> simp [h] <;> omega

theorem avGet_instAv (i : Instance) (a : Attr) (v : Val) :
    avGet (instAv i) a v = cntPair i a v := by
  simp [instAv, avGet_avIncInst, avGet_nil]

theorem cntPair_eq_zero_of_not_mem {i : Instance} {a : Attr} (v : Val)
    (h : a ∉ i.map Prod.fst) : cntPair i a v = 0 := by
  induction i with
  | nil => simp [cntPair]
  | cons p r ih =>
    simp only [List.map_cons, List.mem_cons] at h
    push_neg at h
    rw [cntPair_cons, ih h.2, if_neg]
    intro hc
    exact h.1 hc.1.symm

theorem cntPair_le_one {i : Instance} (hk : instKeysOk i) (a : Attr) (v : Val) :
    cntPair i a v ≤ 1 := by
  induction i with
  | nil => simp [cntPair]
  | cons p r ih =>
    simp only [instKeysOk, List.map_cons, List.nodup_cons] at hk
    rw [cntPair_cons]
    by_cases h : p.1 = a ∧ p.2 = v
    · rw [if_pos h, cntPair_eq_zero_of_not_mem v (h.1 ▸ hk.1)]
    · rw [if_neg h]
      simpa using ih hk.2

/-! ### Lemmas: well-formedness of tables -/

theorem WfAV_nil : WfAV [] := by
  constructor <;> simp

theorem lookupD_self_mem {α : Type} (l : List (String × α)) (k : String) (d : α) :
    lookupD l k d = d ∨ (k, lookupD l k d) ∈ l := by
  induction l with
  | nil => left; simp [lookupD]
  | cons p r ih =>
    obtain ⟨k0, v0⟩ := p
    by_cases h0 : k0 = k
    · subst h0
      right
      simp [lookupD]
    · simp only [lookupD, h0, if_false]
      rcases ih with h | h
      · left; exact h
      · right; exact List.mem_cons_of_mem _ h

theorem inner_nodup_of_wfav {A : AV} (hA : WfAV A) (a : Attr) :
    ((lookupD A a []).map Prod.fst).Nodup := by
  rcases lookupD_self_mem A a [] with h | h
  · rw [h]; simp
  · exact hA.2 _ h

theorem wfav_avIncBy {A : AV} (hA : WfAV A) (a : Attr) (v : Val) (k : Nat) :
    WfAV (avIncBy A a v k) := by
  constructor
  · exact nodup_keys_upsert a _ [] hA.1
  · intro p hp
    rcases mem_upsert hp with h | h
    · exact hA.2 p h
    · rw [h]
      exact nodup_keys_upsert v _ 0 (inner_nodup_of_wfav hA a)

theorem wfav_avInc {A : AV} (hA : WfAV A) (a : Attr) (v : Val) : WfAV (avInc A a v) :=
  wfav_avIncBy hA a v 1

theorem wfav_avIncInst (i : Instance) : ∀ {A : AV}, WfAV A → WfAV (avIncInst A i) := by
  induction i with
  | nil => intro A hA; simpa [avIncInst] using hA
  | cons p r ih =>
    intro A hA
    have h1 : avIncInst A (p :: r) = avIncInst (avInc A p.1 p.2) r := by
      simp [avIncInst]
    rw [h1]
    exact ih (wfav_avInc hA p.1 p.2)

theorem wfav_instAv (i : Instance) : WfAV (instAv i) :=
  wfav_avIncInst i WfAV_nil

theorem wfav_innerFold (a0 : Attr) (vs : List (Val × Nat)) :
    ∀ {A : AV}, WfAV A → WfAV (vs.foldl (fun acc2 q => avIncBy acc2 a0 q.1 q.2) A) := by
  induction vs with
  | nil => intro A hA; simpa using hA
  | cons q r ih =>
    intro A hA
    simpa using ih (wfav_avIncBy hA a0 q.1 q.2)

theorem wfav_avAdd (B : AV) : ∀ {A : AV}, WfAV A → WfAV (avAdd A B) := by
  induction B with
  | nil => intro A hA; simpa [avAdd] using hA
  | cons p r ih =>
    intro A hA
    have h1 : avAdd A (p :: r) =
        avAdd (p.2.foldl (fun acc2 q => avIncBy acc2 p.1 q.1 q.2) A) r := by
      simp [avAdd]
    rw [h1]
    exact ih (wfav_innerFold p.1 p.2 hA)

/-! ### Lemmas: `avAdd` as pointwise addition on well-formed tables -/

theorem vcnt_eq_zero_of_not_mem {vs : List (Val × Nat)} {v : Val}
    (h : v ∉ vs.map Prod.fst) : vcnt vs v = 0 := by
  induction vs with
  | nil => simp [vcnt]
  | cons q r ih =>
    simp only [List.map_cons, List.mem_cons] at h
    push_neg at h
    have h1 : ¬ (q.1 = v) := fun hc => h.1 hc.symm
    simp only [vcnt, List.map_cons, List.sum_cons, if_neg h1, Nat.zero_add]
    exact ih h.2

theorem vcnt_eq_lookupD {vs : List (Val × Nat)} (v : Val)
    (h : (vs.map Prod.fst).Nodup) : vcnt vs v = lookupD vs v 0 := by
  induction vs with
  | nil => simp [vcnt, lookupD]
  | cons q r ih =>
    obtain ⟨v0, c0⟩ := q
    simp only [List.map_cons, List.nodup_cons] at h
    by_cases h0 : v0 = v
    · subst h0
      simp only [vcnt, List.map_cons, List.sum_cons, if_pos rfl, lookupD]
      have : vcnt r v0 = 0 := vcnt_eq_zero_of_not_mem h.1
      simp only [vcnt] at this
      simp [this]
    · simp only [vcnt, List.map_cons, List.sum_cons, if_neg h0, Nat.zero_add, lookupD, h0,
        if_false]
      exact ih h.2

theorem avGet_innerFold (a0 : Attr) (vs : List (Val × Nat)) :
    ∀ (A : AV) (a : Attr) (v : Val),
      avGet (vs.foldl (fun acc2 q => avIncBy acc2 a0 q.1 q.2) A) a v
        = avGet A a v + (if a0 = a then vcnt vs v else 0) := by
  induction vs with
  | nil => intro A a v; simp [vcnt]
  | cons q r ih =>
    intro A a v
    simp only [List.foldl_cons]
    rw [ih, avGet_avIncBy]
    by_cases ha : a0 = a
    · subst ha
      by_cases hv : q.1 = v
      · simp [vcnt, hv]; omega
      · simp [vcnt, hv]
    · simp [ha]

theorem avGet_cons (a0 : Attr) (vs : List (Val × Nat)) (r : AV) (a : Attr) (v : Val) :
    avGet ((a0, vs) :: r) a v = if a0 = a then lookupD vs v 0 else avGet r a v := by
  simp only [avGet, lookupD]
  by_cases h : a0 = a <;> simp [h]

theorem avGet_avAdd (B : AV) (hB : WfAV B) : ∀ (A : AV) (a : Attr) (v : Val),
    avGet (avAdd A B) a v = avGet A a v + avGet B a v := by
  induction B with
  | nil => intro A a v; simp [avAdd, avGet_nil]
  | cons p r ih =>
    intro A a v
    obtain ⟨a0, vs⟩ := p
    have h1 : avAdd A ((a0, vs) :: r) =
        avAdd (vs.foldl (fun acc2 q => avIncBy acc2 a0 q.1 q.2) A) r := by
      simp [avAdd]
    have hkeys : a0 ∉ r.map Prod.fst := by
      have := hB.1
      simp only [List.map_cons, List.nodup_cons] at this
      exact this.1
    have hwfr : WfAV r := by
      refine ⟨?_, fun q hq => hB.2 q (List.mem_cons_of_mem _ hq)⟩
      have := hB.1
      simp only [List.map_cons, List.nodup_cons] at this
      exact this.2
    have hvs : (vs.map Prod.fst).Nodup := hB.2 (a0, vs) (List.mem_cons_self _ _)
    rw [h1, ih hwfr, avGet_innerFold, avGet_cons]
    by_cases ha : a0 = a
    · subst ha
      rw [if_pos rfl, if_pos rfl, vcnt_eq_lookupD v hvs,
        avGet_eq_zero_of_not_mem_keys v hkeys]
      omega
    · simp [ha]

/-! ### Lemmas: sums of squared counts -/

theorem sum_upsert {α : Type} (l : List (String × α)) (k : String) (f : α → α) (d : α)
    (h : α → ℚ) (hd : h d = 0) :
    ((upsert l k f d).map (fun p => h p.2)).sum
      = (l.map (fun p => h p.2)).sum + h (f (lookupD l k d)) - h (lookupD l k d) := by
  induction l with
  | nil => simp [upsert, lookupD, hd]
  | cons q r ih =>
    obtain ⟨k0, v0⟩ := q
    by_cases h0 : k0 = k
    · subst h0
      have e1 : upsert ((k0, v0) :: r) k0 f d = (k0, f v0) :: r := by
        simp [upsert]
      have e2 : lookupD ((k0, v0) :: r) k0 d = v0 := by
        simp [lookupD]
      rw [e1, e2]
      simp only [List.map_cons, List.sum_cons]
      ring
    · have e1 : upsert ((k0, v0) :: r) k f d = (k0, v0) :: upsert r k f d := by
        simp [upsert, h0]
      have e2 : lookupD ((k0, v0) :: r) k d = lookupD r k d := by
        simp [lookupD, h0]
      rw [e1, e2]
      simp only [List.map_cons, List.sum_cons, ih]
      ring

theorem sqSum_avInc (A : AV) (a : Attr) (v : Val) :
    sqSum (avInc A a v) = sqSum A + 2 * ((avGet A a v : Nat) : ℚ) + 1 := by
  unfold sqSum avInc avIncBy
  rw [sum_upsert A a _ [] (fun vs => (vs.map (fun q => ((q.2 : Nat) : ℚ) ^ 2)).sum) (by simp)]
  rw [sum_upsert (lookupD A a []) v _ 0 (fun c => ((c : Nat) : ℚ) ^ 2) (by simp)]
  have : ((lookupD (lookupD A a []) v 0 + 1 : Nat) : ℚ) ^ 2
      = ((lookupD (lookupD A a []) v 0 : Nat) : ℚ) ^ 2
        + 2 * ((lookupD (lookupD A a []) v 0 : Nat) : ℚ) + 1 := by
    push_cast
    ring
  rw [this]
  unfold avGet
  ring

theorem sqSum_nonneg (A : AV) : 0 ≤ sqSum A := by
  unfold sqSum
  refine List.sum_nonneg ?_
  intro x hx
  rcases List.mem_map.mp hx with ⟨p, _, rfl⟩
  refine List.sum_nonneg ?_
  intro y hy
  rcases List.mem_map.mp hy with ⟨q, _, rfl⟩
  positivity

theorem sqSum_avIncInst_mono (i : Instance) :
    ∀ (A B : AV), (∀ a v, avGet B a v ≤ avGet A a v) →
      sqSum (avIncInst B i) - sqSum B ≤ sqSum (avIncInst A i) - sqSum A := by
  induction i with
  | nil => intro A B _; simp [avIncInst]
  | cons p r ih =>
    intro A B hmono
    have hA : avIncInst A (p :: r) = avIncInst (avInc A p.1 p.2) r := by simp [avIncInst]
    have hB : avIncInst B (p :: r) = avIncInst (avInc B p.1 p.2) r := by simp [avIncInst]
    rw [hA, hB]
    have hmono' : ∀ a v, avGet (avInc B p.1 p.2) a v ≤ avGet (avInc A p.1 p.2) a v := by
      intro a v
      rw [avGet_avInc, avGet_avInc]
      have := hmono a v
      omega
    have h1 := ih (avInc A p.1 p.2) (avInc B p.1 p.2) hmono'
    have h2 : sqSum (avInc A p.1 p.2) - sqSum A = 2 * ((avGet A p.1 p.2 : Nat) : ℚ) + 1 := by
      rw [sqSum_avInc]; ring
    have h3 : sqSum (avInc B p.1 p.2) - sqSum B = 2 * ((avGet B p.1 p.2 : Nat) : ℚ) + 1 := by
      rw [sqSum_avInc]; ring
    have h4 : ((avGet B p.1 p.2 : Nat) : ℚ) ≤ ((avGet A p.1 p.2 : Nat) : ℚ) := by
      exact_mod_cast hmono p.1 p.2
    linarith

theorem sqSum_instAv_le (i : Instance) (A : AV) :
    sqSum (instAv i) ≤ sqSum (avIncInst A i) := by
  have h1 := sqSum_avIncInst_mono i A [] (fun a v => by simp [avGet_nil])
  have h2 := sqSum_nonneg A
  have h3 : sqSum ([] : AV) = 0 := by simp [sqSum]
  unfold instAv
  linarith

/-! ### Lemmas: folds as sums, category utility in closed form -/

theorem foldl_add_eq {α : Type} (f : α → ℚ) (l : List α) :
    ∀ (acc : ℚ), l.foldl (fun s x => s + f x) acc = acc + (l.map f).sum := by
  induction l with
  | nil => intro acc; simp
  | cons x r ih =>
    intro acc
    simp only [List.foldl_cons, List.map_cons, List.sum_cons, ih]
    ring

theorem foldl_foldl_add (g : Val × Nat → ℚ) (A : AV) :
    ∀ (acc : ℚ),
      A.foldl (fun acc p => p.2.foldl (fun acc2 q => acc2 + g q) acc) acc
        = acc + (A.map (fun p => (p.2.map g).sum)).sum := by
  induction A with
  | nil => intro acc; simp
  | cons p r ih =>
    intro acc
    simp only [List.foldl_cons, List.map_cons, List.sum_cons, ih, foldl_add_eq]
    ring

theorem ecg_eq_sum (n : Node) :
    expected_correct_guesses n
      = (n.av.map (fun p =>
          (p.2.map (fun q => (((q.2 : Nat) : ℚ) / (n.count : ℚ)) ^ 2)).sum)).sum := by
  unfold expected_correct_guesses
  rw [foldl_foldl_add, zero_add]
  simp only [pow_two]

theorem category_utility_eq_sum (n : Node) (h : n.children.length ≠ 0) :
    category_utility n
      = (n.children.map (fun c => ((c.count : ℚ) / (n.count : ℚ)) *
          (expected_correct_guesses c - expected_correct_guesses n))).sum
        / (n.children.length : ℚ) := by
  unfold category_utility
  rw [if_neg h, foldl_add_eq, zero_add]

theorem ecg_count_one (A : AV) (ch : List Node) :
    expected_correct_guesses (.mk 1 A ch) = sqSum A := by
  rw [ecg_eq_sum]
  unfold sqSum
  simp [Node.av, Node.count]

theorem fringe_nonpos_of_count_zero (n : Node) (inst : Instance) (h : n.count = 0) :
    cu_for_fringe_split n inst ≤ 0 := by
  unfold cu_for_fringe_split
  rw [h]
  simp only [lt_irrefl, if_false, List.nil_append, Nat.zero_add]
  rw [category_utility_eq_sum _ (by simp [Node.children])]
  simp only [Node.children, Node.count, List.map_cons, List.map_nil, List.sum_cons,
    List.sum_nil, List.length_cons, List.length_nil]
  rw [ecg_count_one, ecg_count_one]
  have h1 := sqSum_instAv_le inst n.av
  have h2 : ((Node.count (.mk 1 (instAv inst) []) : Nat) : ℚ) = 1 := by
    simp [Node.count]
  simp only [Node.count] at *
  push_cast
  rw [div_self (by norm_num : (1 : ℚ) ≠ 0)]
  have : sqSum (instAv inst) - sqSum (avIncInst n.av inst) ≤ 0 := by linarith
  nlinarith

/-! ### Lemmas: sizes and list sums -/

theorem size_mk (c : Nat) (A : AV) (ch : List Node) :
    size (.mk c A ch) = 1 + (ch.map size).sum := by
  rw [size, List.attach_map_val ch size]

theorem size_pos (n : Node) : 0 < size n := by
  cases n with
  | mk c A ch => rw [size_mk]; omega

theorem sum_map_le_of_mem {α : Type} (f : α → ℕ) {l : List α} {x : α} (h : x ∈ l) :
    f x ≤ (l.map f).sum :=
  List.single_le_sum (fun _ _ => Nat.zero_le _) (f x) (List.mem_map.mpr ⟨x, h, rfl⟩)

theorem size_lt_of_mem {k : Node} {c : Nat} {A : AV} {ch : List Node} (h : k ∈ ch) :
    size k < size (.mk c A ch) := by
  rw [size_mk]
  have := sum_map_le_of_mem size h
  omega

theorem getD_eq_getElem {α : Type} (l : List α) (i : Nat) (d : α) (h : i < l.length) :
    l.getD i d = l[i] := by
  simp [List.getD_eq_getElem?_getD, List.getElem?_eq_getElem h]

theorem sum_map_set {α : Type} (f : α → ℕ) :
    ∀ (l : List α) (i : Nat) (c d : α), i < l.length →
      ((l.set i c).map f).sum + f (l.getD i d) = (l.map f).sum + f c := by
  intro l
  induction l with
  | nil => intro i c d h; simp at h
  | cons x r ih =>
    intro i c d h
    cases i with
    | zero =>
      simp only [List.set_cons_zero, List.map_cons, List.sum_cons, List.getD_cons_zero]
      omega
    | succ i =>
      simp only [List.set_cons_succ, List.map_cons, List.sum_cons, List.getD_cons_succ]
      have h' : i < r.length := by simpa [Nat.succ_lt_succ_iff] using h
      have := ih i c d h'
      omega

theorem sum_map_eraseIdx {α : Type} (f : α → ℕ) :
    ∀ (l : List α) (i : Nat) (d : α), i < l.length →
      ((l.eraseIdx i).map f).sum + f (l.getD i d) = (l.map f).sum := by
  intro l
  induction l with
  | nil => intro i d h; simp at h
  | cons x r ih =>
    intro i d h
    cases i with
    | zero =>
      simp only [List.eraseIdx_cons_zero, List.map_cons, List.sum_cons, List.getD_cons_zero]
      omega
    | succ i =>
      simp only [List.eraseIdx_cons_succ, List.map_cons, List.sum_cons, List.getD_cons_succ]
      have h' : i < r.length := by simpa [Nat.succ_lt_succ_iff] using h
      have := ih i d h'
      omega

theorem mem_of_mem_eraseIdx {α : Type} {l : List α} {i : Nat} {x : α}
    (h : x ∈ l.eraseIdx i) : x ∈ l :=
  (List.eraseIdx_sublist l i).mem h

theorem mem_of_mem_set {α : Type} :
    ∀ {l : List α} {i : Nat} {c x : α}, x ∈ l.set i c → x = c ∨ x ∈ l := by
  intro l
  induction l with
  | nil => intro i c x h; simp [List.set] at h
  | cons y r ih =>
    intro i c x h
    cases i with
    | zero =>
      rcases List.mem_cons.mp h with h1 | h1
      · left; exact h1
      · right; exact List.mem_cons_of_mem _ h1
    | succ i =>
      rcases List.mem_cons.mp h with h1 | h1
      · right; rw [h1]; exact List.mem_cons_self _ _
      · rcases ih h1 with h2 | h2
        · left; exact h2
        · right; exact List.mem_cons_of_mem _ h2

/-! ### Lemmas: maxima of utility lists -/

theorem foldl_max_le (l : List ℚ) : ∀ (a x : ℚ), x ∈ a :: l → x ≤ l.foldl max a := by
  induction l with
  | nil =>
    intro a x h
    simp only [List.mem_singleton] at h
    simp [h]
  | cons y r ih =>
    intro a x h
    simp only [List.foldl_cons]
    rcases List.mem_cons.mp h with h1 | h1
    · calc x = a := h1
        _ ≤ max a y := le_max_left a y
        _ ≤ r.foldl max (max a y) := ih (max a y) (max a y) (List.mem_cons_self _ _)
    · rcases List.mem_cons.mp h1 with h2 | h2
      · calc x = y := h2
          _ ≤ max a y := le_max_right a y
          _ ≤ r.foldl max (max a y) := ih (max a y) (max a y) (List.mem_cons_self _ _)
      · exact ih (max a y) x (List.mem_cons_of_mem _ h2)

theorem foldl_max_mem (l : List ℚ) : ∀ (a : ℚ), l.foldl max a ∈ a :: l := by
  induction l with
  | nil => intro a; simp
  | cons y r ih =>
    intro a
    simp only [List.foldl_cons]
    have h := ih (max a y)
    rcases max_choice a y with hm | hm
    · rcases List.mem_cons.mp h with h1 | h1
      · rw [h1, hm]; exact List.mem_cons_self _ _
      · exact List.mem_cons_of_mem _ (List.mem_cons_of_mem _ h1)
    · rcases List.mem_cons.mp h with h1 | h1
      · rw [h1, hm]; exact List.mem_cons_of_mem _ (List.mem_cons_self _ _)
      · exact List.mem_cons_of_mem _ (List.mem_cons_of_mem _ h1)

theorem maxQ_mem {l : List ℚ} (h : l ≠ []) : maxQ l ∈ l := by
  cases l with
  | nil => exact absurd rfl h
  | cons x r => exact foldl_max_mem r x

theorem le_maxQ {l : List ℚ} {x : ℚ} (h : x ∈ l) : x ≤ maxQ l := by
  cases l with
  | nil => simp at h
  | cons y r => exact foldl_max_le r y x h

theorem childInsertCus_length (n : Node) (inst : Instance) :
    (childInsertCus n inst).length = n.children.length := by
  simp [childInsertCus]

theorem childInsertCus_getElem (n : Node) (inst : Instance) {j : Nat}
    (h : j < (childInsertCus n inst).length) :
    (childInsertCus n inst)[j] = cu_for_insert n j inst := by
  simp [childInsertCus]

theorem twoBest_fst (n : Node) (inst : Instance) :
    (twoBest n inst).1 = (maxQ (childInsertCus n inst),
      (childInsertCus n inst).indexOf (maxQ (childInsertCus n inst))) := by
  unfold twoBest
  split_ifs <;> rfl

theorem twoBest_idx_lt {n : Node} {inst : Instance} (h : n.children.length ≠ 0) :
    (twoBest n inst).1.2 < n.children.length := by
  rw [twoBest_fst]
  have hne : childInsertCus n inst ≠ [] := by
    intro hc
    apply h
    have := childInsertCus_length n inst
    rw [hc] at this
    simpa using this.symm
  have := List.indexOf_lt_length.mpr (maxQ_mem hne)
  rwa [childInsertCus_length] at this

theorem twoBest_cu_le {n : Node} {inst : Instance} {j : Nat} (h : j < n.children.length) :
    cu_for_insert n j inst ≤ (twoBest n inst).1.1 := by
  rw [twoBest_fst]
  have hj : j < (childInsertCus n inst).length := by rwa [childInsertCus_length]
  have hmem : cu_for_insert n j inst ∈ childInsertCus n inst := by
    rw [← childInsertCus_getElem n inst hj]
    exact List.getElem_mem hj
  exact le_maxQ hmem

theorem twoBest_cu_eq {n : Node} {inst : Instance} (h : n.children.length ≠ 0) :
    (twoBest n inst).1.1 = cu_for_insert n (twoBest n inst).1.2 inst := by
  rw [twoBest_fst]
  have hne : childInsertCus n inst ≠ [] := by
    intro hc
    apply h
    have := childInsertCus_length n inst
    rw [hc] at this
    simpa using this.symm
  have hlt := List.indexOf_lt_length.mpr (maxQ_mem hne)
  have hget := List.indexOf_get hlt
  rw [List.get_eq_getElem] at hget
  conv_lhs => rw [← hget]
  rw [childInsertCus_getElem]

theorem twoBest_snd_some {n : Node} {inst : Instance} {p : ℚ × Nat}
    (h0 : n.children.length ≠ 0) (h : (twoBest n inst).2 = some p) :
    p.2 < n.children.length ∧ p.2 ≠ (twoBest n inst).1.2 := by
  have hlen := childInsertCus_length n inst
  by_cases h1 : n.children.length = 1
  · exfalso
    unfold twoBest at h
    rw [if_pos h1] at h
    simp at h
  · unfold twoBest at h
    rw [if_neg h1] at h
    simp only [Option.some.injEq] at h
    subst h
    rw [twoBest_fst]
    have hne : childInsertCus n inst ≠ [] := by
      intro hc
      rw [hc] at hlen
      simp only [List.length_nil] at hlen
      exact h0 hlen.symm
    have hi1 : (childInsertCus n inst).indexOf (maxQ (childInsertCus n inst))
        < (childInsertCus n inst).length :=
      List.indexOf_lt_length.mpr (maxQ_mem hne)
    have hlr : ((childInsertCus n inst).eraseIdx
        ((childInsertCus n inst).indexOf (maxQ (childInsertCus n inst)))).length
        = (childInsertCus n inst).length - 1 := by
      rw [List.length_eraseIdx, if_pos hi1]
    have hrest : (childInsertCus n inst).eraseIdx
        ((childInsertCus n inst).indexOf (maxQ (childInsertCus n inst))) ≠ [] := by
      intro hc
      rw [hc] at hlr
      simp only [List.length_nil] at hlr
      omega
    have hj := List.indexOf_lt_length.mpr (maxQ_mem hrest)
    rw [hlr] at hj
    constructor
    · simp only []
      split_ifs with hc <;> omega
    · simp only [ne_eq]
      split_ifs with hc <;> omega

/-! ### Lemmas: subtree membership -/

theorem subnode_cases {r n : Node} (h : Subnode r n) :
    r = n ∨ ∃ x ∈ n.children, Subnode r x := by
  cases h with
  | refl => left; rfl
  | child hm hs => right; exact ⟨_, hm, hs⟩

theorem subnode_of_leaf {k : Node} {c : Nat} {A : AV} (h : Subnode k (.mk c A [])) :
    k = .mk c A [] := by
  rcases subnode_cases h with h1 | ⟨x, hx, _⟩
  · exact h1
  · simp [Node.children] at hx

/-! ### Lemmas: the operation order -/

theorem opRank_inj {x y : Op} (h : opRank x = opRank y) : x = y := by
  cases x <;> cases y <;> simp_all [opRank]

theorem opLt_trichot (x y : ℚ × Op) : opLt x y ∨ x = y ∨ opLt y x := by
  rcases lt_trichotomy x.1 y.1 with h | h | h
  · left; exact Or.inl h
  · rcases lt_trichotomy (opRank x.2) (opRank y.2) with h2 | h2 | h2
    · left; exact Or.inr ⟨h, h2⟩
    · right; left
      have := opRank_inj h2
      exact Prod.ext h this
    · right; right; exact Or.inr ⟨h.symm, h2⟩
  · right; right; exact Or.inl h

theorem opLt_trans {x y z : ℚ × Op} (h1 : opLt x y) (h2 : opLt y z) : opLt x z := by
  rcases h1 with h1 | ⟨h1a, h1b⟩
  · rcases h2 with h2 | ⟨h2a, h2b⟩
    · exact Or.inl (lt_trans h1 h2)
    · exact Or.inl (h2a ▸ h1)
  · rcases h2 with h2 | ⟨h2a, h2b⟩
    · exact Or.inl (h1a ▸ h2)
    · exact Or.inr ⟨h1a.trans h2a, lt_trans h1b h2b⟩

theorem maxOpFrom_mem : ∀ (l : List (ℚ × Op)) (m : ℚ × Op), maxOpFrom m l ∈ m :: l := by
  intro l
  induction l with
  | nil => intro m; simp [maxOpFrom]
  | cons x r ih =>
    intro m
    simp only [maxOpFrom]
    by_cases h : opLt m x
    · rw [if_pos h]
      rcases List.mem_cons.mp (ih x) with h1 | h1
      · rw [h1]; exact List.mem_cons_of_mem _ (List.mem_cons_self _ _)
      · exact List.mem_cons_of_mem _ (List.mem_cons_of_mem _ h1)
    · rw [if_neg h]
      rcases List.mem_cons.mp (ih m) with h1 | h1
      · rw [h1]; exact List.mem_cons_self _ _
      · exact List.mem_cons_of_mem _ (List.mem_cons_of_mem _ h1)

theorem maxOpFrom_ge : ∀ (l : List (ℚ × Op)) (m x : ℚ × Op), x ∈ m :: l →
    x = maxOpFrom m l ∨ opLt x (maxOpFrom m l) := by
  intro l
  induction l with
  | nil =>
    intro m x h
    simp only [List.mem_singleton] at h
    left
    rw [h]
    rfl
  | cons y r ih =>
    intro m x h
    simp only [maxOpFrom]
    have hseed : ∀ z : ℚ × Op, (z = m ∨ z = y) →
        (z = (if opLt m y then y else m) ∨ opLt z (if opLt m y then y else m)) := by
      intro z hz
      by_cases hmy : opLt m y
      · rw [if_pos hmy]
        rcases hz with hz | hz
        · right; rw [hz]; exact hmy
        · left; exact hz
      · rw [if_neg hmy]
        rcases hz with hz | hz
        · left; exact hz
        · rcases opLt_trichot m y with h1 | h1 | h1
          · exact absurd h1 hmy
          · left; rw [hz, h1]
          · right; rw [hz]; exact h1
    rcases List.mem_cons.mp h with h1 | h1
    · rcases hseed x (Or.inl h1) with h2 | h2
      · rw [h2]
        exact ih _ _ (List.mem_cons_self _ _)
      · rcases ih (if opLt m y then y else m) _ (List.mem_cons_self _ _) with h3 | h3
        · rw [← h3]; right; exact h2
        · right; exact opLt_trans h2 h3
    · rcases List.mem_cons.mp h1 with h2 | h2
      · rcases hseed x (Or.inr h2) with h3 | h3
        · rw [h3]
          exact ih _ _ (List.mem_cons_self _ _)
        · rcases ih (if opLt m y then y else m) _ (List.mem_cons_self _ _) with h4 | h4
          · rw [← h4]; right; exact h3
          · right; exact opLt_trans h3 h4
      · exact ih _ x (List.mem_cons_of_mem _ h2)

/-! ### Lemmas: the candidate list of `get_best_operation` -/

theorem bestOps_cons (n : Node) (inst : Instance) (b1 : ℚ × Nat) (b2 : Option (ℚ × Nat)) :
    bestOps n inst b1 b2 = (b1.1, Op.best) :: ((cu_for_new_child n inst, Op.new) ::
      ((match b2 with
        | some p => if 2 < n.children.length
            then [(cu_for_merge n b1.2 p.2 inst, Op.merge)] else []
        | none => [])
      ++ (if (n.children.getD b1.2 default).children.length ≠ 0
          then [(cu_for_split n b1.2, Op.split)] else []))) := by
  rfl

theorem get_best_operation_mem (n : Node) (inst : Instance) (b1 : ℚ × Nat)
    (b2 : Option (ℚ × Nat)) :
    get_best_operation n inst b1 b2 ∈ bestOps n inst b1 b2 := by
  unfold get_best_operation
  rw [bestOps_cons]
  exact maxOpFrom_mem _ _

theorem get_best_operation_max (n : Node) (inst : Instance) (b1 : ℚ × Nat)
    (b2 : Option (ℚ × Nat)) :
    ∀ x ∈ bestOps n inst b1 b2, x = get_best_operation n inst b1 b2 ∨
      opLt x (get_best_operation n inst b1 b2) := by
  intro x hx
  unfold get_best_operation
  rw [bestOps_cons] at hx ⊢
  exact maxOpFrom_ge _ _ x hx

theorem mem_bestOps_merge {n : Node} {inst : Instance} {b1 : ℚ × Nat}
    {b2 : Option (ℚ × Nat)} {x : ℚ × Op} (hx : x ∈ bestOps n inst b1 b2)
    (h : x.2 = Op.merge) : 2 < n.children.length ∧ ∃ p, b2 = some p := by
  rw [bestOps_cons] at hx
  rcases List.mem_cons.mp hx with h1 | h1
  · rw [h1] at h; simp at h
  rcases List.mem_cons.mp h1 with h2 | h2
  · rw [h2] at h; simp at h
  rcases List.mem_append.mp h2 with h3 | h3
  · cases hb : b2 with
    | none => rw [hb] at h3; simp at h3
    | some p =>
      rw [hb] at h3
      have h3' : x ∈ (if 2 < n.children.length
          then [(cu_for_merge n b1.2 p.2 inst, Op.merge)] else []) := h3
      by_cases hc : 2 < n.children.length
      · exact ⟨hc, p, rfl⟩
      · rw [if_neg hc] at h3'; simp at h3'
  · by_cases hc : (n.children.getD b1.2 default).children.length ≠ 0
    · rw [if_pos hc] at h3
      simp only [List.mem_singleton] at h3
      rw [h3] at h
      simp at h
    · rw [if_neg hc] at h3; simp at h3

theorem mem_bestOps_split {n : Node} {inst : Instance} {b1 : ℚ × Nat}
    {b2 : Option (ℚ × Nat)} {x : ℚ × Op} (hx : x ∈ bestOps n inst b1 b2)
    (h : x.2 = Op.split) : (n.children.getD b1.2 default).children.length ≠ 0 := by
  rw [bestOps_cons] at hx
  rcases List.mem_cons.mp hx with h1 | h1
  · rw [h1] at h; simp at h
  rcases List.mem_cons.mp h1 with h2 | h2
  · rw [h2] at h; simp at h
  rcases List.mem_append.mp h2 with h3 | h3
  · cases hb : b2 with
    | none => rw [hb] at h3; simp at h3
    | some p =>
      rw [hb] at h3
      have h3' : x ∈ (if 2 < n.children.length
          then [(cu_for_merge n b1.2 p.2 inst, Op.merge)] else []) := h3
      by_cases hc : 2 < n.children.length
      · rw [if_pos hc] at h3'
        simp only [List.mem_singleton] at h3'
        rw [h3'] at h
        simp at h
      · rw [if_neg hc] at h3'; simp at h3'
  · by_cases hc : (n.children.getD b1.2 default).children.length ≠ 0
    · exact hc
    · rw [if_neg hc] at h3; simp at h3

/-! ### Lemmas: double removal of children -/

theorem getD_mem {α : Type} {l : List α} {i : Nat} (d : α) (h : i < l.length) :
    l.getD i d ∈ l := by
  rw [getD_eq_getElem l i d h]
  exact List.getElem_mem h

theorem length_erase2 {α : Type} (l : List α) (i j : Nat) (hij : i ≠ j)
    (hi : i < l.length) (hj : j < l.length) :
    ((l.eraseIdx i).eraseIdx (if i < j then j - 1 else j)).length = l.length - 2 := by
  have h1 : (l.eraseIdx i).length = l.length - 1 := by
    rw [List.length_eraseIdx, if_pos hi]
  have h2 : (if i < j then j - 1 else j) < (l.eraseIdx i).length := by
    rw [h1]
    split_ifs with hc <;> omega
  rw [List.length_eraseIdx, if_pos h2, h1]
  omega

theorem getD_erase2 {α : Type} (l : List α) (i j : Nat) (d : α) (hij : i ≠ j)
    (hi : i < l.length) (hj : j < l.length) :
    (l.eraseIdx i).getD (if i < j then j - 1 else j) d = l.getD j d := by
  have h1 : (l.eraseIdx i).length = l.length - 1 := by
    rw [List.length_eraseIdx, if_pos hi]
  have h2 : (if i < j then j - 1 else j) < (l.eraseIdx i).length := by
    rw [h1]
    split_ifs with hc <;> omega
  by_cases hc : i < j
  · rw [if_pos hc] at h2 ⊢
    rw [getD_eq_getElem _ _ _ h2, getD_eq_getElem _ _ _ hj, List.getElem_eraseIdx,
      dif_neg (by omega)]
    congr 1
    omega
  · rw [if_neg hc] at h2 ⊢
    rw [getD_eq_getElem _ _ _ h2, getD_eq_getElem _ _ _ hj, List.getElem_eraseIdx,
      dif_pos (by omega)]

theorem sum_map_erase2 {α : Type} (f : α → ℕ) (l : List α) (i j : Nat) (d : α)
    (hij : i ≠ j) (hi : i < l.length) (hj : j < l.length) :
    (((l.eraseIdx i).eraseIdx (if i < j then j - 1 else j)).map f).sum
      + f (l.getD i d) + f (l.getD j d) = (l.map f).sum := by
  have h1 : (l.eraseIdx i).length = l.length - 1 := by
    rw [List.length_eraseIdx, if_pos hi]
  have h2 : (if i < j then j - 1 else j) < (l.eraseIdx i).length := by
    rw [h1]
    split_ifs with hc <;> omega
  have hA := sum_map_eraseIdx f (l.eraseIdx i) (if i < j then j - 1 else j) d h2
  have hB := sum_map_eraseIdx f l i d hi
  rw [getD_erase2 l i j d hij hi hj] at hA
  omega

theorem mem_of_mem_erase2 {α : Type} {l : List α} {i j' : Nat} {x : α}
    (h : x ∈ (l.eraseIdx i).eraseIdx j') : x ∈ l :=
  mem_of_mem_eraseIdx (mem_of_mem_eraseIdx h)

/-! ### Lemmas: the reachable-state invariant -/

theorem reachInv_top {n : Node} (h : ReachInv n) :
    consOK n ∧ (n.children ≠ [] → 2 ≤ n.children.length) ∧ WfAV n.av ∧ avLeOK n :=
  h n (Subnode.refl n)

theorem reachInv_child {n x : Node} (hx : x ∈ n.children) (h : ReachInv n) : ReachInv x :=
  fun k hk => h k (Subnode.child hx hk)

theorem children_ne_nil_of_length {n : Node} (h : n.children.length ≠ 0) :
    n.children ≠ [] := by
  intro hc
  rw [hc] at h
  simp at h

/-- The collapsed childless results (leaf absorption and pruning) satisfy the
invariant. -/
theorem reachInv_leaf {c : Nat} {A : AV} {i : Instance} (hw : WfAV A)
    (hle : ∀ a v, avGet A a v ≤ c) (hk : instKeysOk i) :
    ReachInv (.mk (c + 1) (avIncInst A i) []) := by
  intro k hk'
  rw [subnode_of_leaf hk']
  refine ⟨?_, ?_, ?_, ?_⟩
  · intro hc; simp [Node.children] at hc
  · intro hc; simp [Node.children] at hc
  · simp only [Node.av]
    exact wfav_avIncInst i hw
  · intro a v
    simp only [Node.av, Node.count]
    rw [avGet_avIncInst]
    have := hle a v
    have := cntPair_le_one hk a v
    omega

/-- The two-child result of a fringe split satisfies the invariant. -/
theorem reachInv_fringe {c : Nat} {A : AV} {i : Instance} (hw : WfAV A)
    (hle : ∀ a v, avGet A a v ≤ c) (hk : instKeysOk i) (hc : 0 < c) :
    ReachInv (.mk (c + 1) (avIncInst A i) [.mk c A [], .mk 1 (instAv i) []]) := by
  intro k hk'
  rcases subnode_cases hk' with rfl | ⟨x, hx, hsub⟩
  · refine ⟨?_, ?_, ?_, ?_⟩
    · intro _
      constructor
      · simp [Node.children, Node.count]
      · intro a v
        simp only [Node.children, Node.av, List.map_cons, List.map_nil, List.sum_cons,
          List.sum_nil]
        rw [avGet_avIncInst, avGet_instAv]
        simp [Node.av]
    · intro _; simp [Node.children]
    · simp only [Node.av]
      exact wfav_avIncInst i hw
    · intro a v
      simp only [Node.av, Node.count]
      rw [avGet_avIncInst]
      have := hle a v
      have := cntPair_le_one hk a v
      omega
  · simp only [Node.children, List.mem_cons, List.not_mem_nil, or_false] at hx
    rcases hx with rfl | rfl
    · rw [subnode_of_leaf hsub]
      refine ⟨?_, ?_, ?_, ?_⟩
      · intro hcc; simp [Node.children] at hcc
      · intro hcc; simp [Node.children] at hcc
      · simpa [Node.av] using hw
      · intro a v
        simpa [Node.av, Node.count] using hle a v
    · rw [subnode_of_leaf hsub]
      refine ⟨?_, ?_, ?_, ?_⟩
      · intro hcc; simp [Node.children] at hcc
      · intro hcc; simp [Node.children] at hcc
      · simp only [Node.av]
        exact wfav_instAv i
      · intro a v
        simp only [Node.av, Node.count]
        rw [avGet_instAv]
        exact cntPair_le_one hk a v

theorem count_mk (c : Nat) (A : AV) (ch : List Node) : (Node.mk c A ch).count = c := rfl

theorem av_mk (c : Nat) (A : AV) (ch : List Node) : (Node.mk c A ch).av = A := rfl

theorem children_mk (c : Nat) (A : AV) (ch : List Node) :
    (Node.mk c A ch).children = ch := rfl

/-- The `best` step preserves the invariant: the instance is absorbed at the
node and the best child is replaced by the recursively updated subtree. -/
theorem reachInv_best {n c' : Node} {inst : Instance} {i1 : Nat}
    (hinv : ReachInv n) (hne : n.children ≠ []) (hi1 : i1 < n.children.length)
    (hcc : c'.count = (n.children.getD i1 default).count + 1)
    (hca : c'.av = avIncInst (n.children.getD i1 default).av inst)
    (hcinv : ReachInv c') (hk : instKeysOk inst) :
    ReachInv (.mk (n.count + 1) (avIncInst n.av inst) (n.children.set i1 c')) := by
  intro k hk'
  rcases subnode_cases hk' with rfl | ⟨x, hx, hsub⟩
  · obtain ⟨hcons, htwo, hwf, hle⟩ := reachInv_top hinv
    obtain ⟨hcount, hav⟩ := hcons hne
    refine ⟨?_, ?_, ?_, ?_⟩
    · intro _
      constructor
      · rw [count_mk, children_mk]
        have hset := sum_map_set Node.count n.children i1 c' default hi1
        omega
      · intro a v
        rw [av_mk, children_mk]
        have hset := sum_map_set (fun x => avGet x.av a v) n.children i1 c' default hi1
        have hc' : avGet c'.av a v
            = avGet (n.children.getD i1 default).av a v + cntPair inst a v := by
          rw [hca, avGet_avIncInst]
        rw [avGet_avIncInst, hav a v]
        simp only at hset
        omega
    · intro _
      rw [children_mk, List.length_set]
      exact htwo hne
    · rw [av_mk]
      exact wfav_avIncInst inst hwf
    · intro a v
      rw [av_mk, count_mk, avGet_avIncInst]
      have := hle a v
      have := cntPair_le_one hk a v
      omega
  · rw [children_mk] at hx
    rcases mem_of_mem_set hx with rfl | hx'
    · exact hcinv k hsub
    · exact hinv k (Subnode.child hx' hsub)

/-- The `new` step preserves the invariant. -/
theorem reachInv_new {n : Node} {inst : Instance}
    (hinv : ReachInv n) (hne : n.children ≠ []) (hk : instKeysOk inst) :
    ReachInv (.mk (n.count + 1) (avIncInst n.av inst)
      (n.children ++ [.mk 1 (instAv inst) []])) := by
  intro k hk'
  rcases subnode_cases hk' with rfl | ⟨x, hx, hsub⟩
  · obtain ⟨hcons, htwo, hwf, hle⟩ := reachInv_top hinv
    obtain ⟨hcount, hav⟩ := hcons hne
    refine ⟨?_, ?_, ?_, ?_⟩
    · intro _
      constructor
      · rw [count_mk, children_mk]
        simp only [List.map_append, List.sum_append, List.map_cons, List.map_nil,
          List.sum_cons, List.sum_nil, count_mk]
        omega
      · intro a v
        rw [av_mk, children_mk]
        simp only [List.map_append, List.sum_append, List.map_cons, List.map_nil,
          List.sum_cons, List.sum_nil, av_mk]
        rw [avGet_avIncInst, hav a v, avGet_instAv]
        omega
    · intro _
      rw [children_mk, List.length_append]
      have := List.length_pos.mpr hne
      simp only [List.length_cons, List.length_nil]
      omega
    · rw [av_mk]
      exact wfav_avIncInst inst hwf
    · intro a v
      rw [av_mk, count_mk, avGet_avIncInst]
      have := hle a v
      have := cntPair_le_one hk a v
      omega
  · rw [children_mk] at hx
    rcases List.mem_append.mp hx with hx' | hx'
    · exact hinv k (Subnode.child hx' hsub)
    · simp only [List.mem_singleton] at hx'
      subst hx'
      rw [subnode_of_leaf hsub]
      refine ⟨?_, ?_, ?_, ?_⟩
      · intro hcc2; simp [children_mk] at hcc2
      · intro hcc2; simp [children_mk] at hcc2
      · rw [av_mk]
        exact wfav_instAv inst
      · intro a v
        rw [av_mk, count_mk, avGet_instAv]
        exact cntPair_le_one hk a v

/-- The freshly merged two-child node satisfies the invariant. -/
theorem reachInv_merged {n : Node} {i1 i2 : Nat}
    (hinv : ReachInv n) (hi1 : i1 < n.children.length) (hi2 : i2 < n.children.length) :
    ReachInv (.mk ((n.children.getD i1 default).count + (n.children.getD i2 default).count)
      (avAdd (n.children.getD i1 default).av (n.children.getD i2 default).av)
      [n.children.getD i1 default, n.children.getD i2 default]) := by
  have hb1 := reachInv_child (getD_mem default hi1) hinv
  have hb2 := reachInv_child (getD_mem default hi2) hinv
  obtain ⟨_, _, hwf1, hle1⟩ := reachInv_top hb1
  obtain ⟨_, _, hwf2, hle2⟩ := reachInv_top hb2
  intro k hk'
  rcases subnode_cases hk' with rfl | ⟨x, hx, hsub⟩
  · refine ⟨?_, ?_, ?_, ?_⟩
    · intro _
      constructor
      · rw [count_mk, children_mk]
        simp
      · intro a v
        rw [av_mk, children_mk]
        simp only [List.map_cons, List.map_nil, List.sum_cons, List.sum_nil]
        rw [avGet_avAdd _ hwf2]
        omega
    · intro _
      rw [children_mk]
      simp
    · rw [av_mk]
      exact wfav_avAdd _ hwf1
    · intro a v
      rw [av_mk, count_mk, avGet_avAdd _ hwf2]
      have := hle1 a v
      have := hle2 a v
      omega
  · rw [children_mk] at hx
    rcases List.mem_cons.mp hx with rfl | hx'
    · exact hb1 k hsub
    · simp only [List.mem_singleton] at hx'
      subst hx'
      exact hb2 k hsub

/-- The `merge` step preserves the invariant: the two best children are
replaced by the recursively updated merged subtree. -/
theorem reachInv_merge_result {n m' : Node} {inst : Instance} {i1 i2 : Nat}
    (hinv : ReachInv n) (hne : n.children ≠ []) (h2 : 2 < n.children.length)
    (hi1 : i1 < n.children.length) (hi2 : i2 < n.children.length) (hij : i1 ≠ i2)
    (hmc : m'.count = (n.children.getD i1 default).count
      + (n.children.getD i2 default).count + 1)
    (hma : m'.av = avIncInst
      (avAdd (n.children.getD i1 default).av (n.children.getD i2 default).av) inst)
    (hminv : ReachInv m') (hk : instKeysOk inst) :
    ReachInv (.mk (n.count + 1) (avIncInst n.av inst)
      (((n.children.eraseIdx i1).eraseIdx (if i1 < i2 then i2 - 1 else i2)) ++ [m'])) := by
  have hb2 := reachInv_child (getD_mem default hi2) hinv
  obtain ⟨_, _, hwf2, _⟩ := reachInv_top hb2
  intro k hk'
  rcases subnode_cases hk' with rfl | ⟨x, hx, hsub⟩
  · obtain ⟨hcons, htwo, hwf, hle⟩ := reachInv_top hinv
    obtain ⟨hcount, hav⟩ := hcons hne
    refine ⟨?_, ?_, ?_, ?_⟩
    · intro _
      constructor
      · rw [count_mk, children_mk]
        simp only [List.map_append, List.sum_append, List.map_cons, List.map_nil,
          List.sum_cons, List.sum_nil]
        have := sum_map_erase2 Node.count n.children i1 i2 default hij hi1 hi2
        omega
      · intro a v
        rw [av_mk, children_mk]
        simp only [List.map_append, List.sum_append, List.map_cons, List.map_nil,
          List.sum_cons, List.sum_nil]
        have hsum := sum_map_erase2 (fun x => avGet x.av a v) n.children i1 i2 default
          hij hi1 hi2
        have hm : avGet m'.av a v = avGet (n.children.getD i1 default).av a v
            + avGet (n.children.getD i2 default).av a v + cntPair inst a v := by
          rw [hma, avGet_avIncInst, avGet_avAdd _ hwf2]
        rw [avGet_avIncInst, hav a v]
        simp only at hsum
        omega
    · intro _
      rw [children_mk, List.length_append]
      rw [length_erase2 n.children i1 i2 hij hi1 hi2]
      simp only [List.length_cons, List.length_nil]
      omega
    · rw [av_mk]
      exact wfav_avIncInst inst hwf
    · intro a v
      rw [av_mk, count_mk, avGet_avIncInst]
      have := hle a v
      have := cntPair_le_one hk a v
      omega
  · rw [children_mk] at hx
    rcases List.mem_append.mp hx with hx' | hx'
    · exact hinv k (Subnode.child (mem_of_mem_erase2 hx') hsub)
    · simp only [List.mem_singleton] at hx'
      subst hx'
      exact hminv k hsub

/-- The `split` step preserves the invariant. -/
theorem reachInv_split {n : Node} {i1 : Nat}
    (hinv : ReachInv n) (hne : n.children ≠ []) (hi1 : i1 < n.children.length)
    (hbch : (n.children.getD i1 default).children ≠ []) :
    ReachInv (Node.split n i1) := by
  have hb1 := reachInv_child (getD_mem default hi1) hinv
  obtain ⟨hcons1, htwo1, _, _⟩ := reachInv_top hb1
  obtain ⟨hbcount, hbav⟩ := hcons1 hbch
  unfold Node.split
  intro k hk'
  rcases subnode_cases hk' with rfl | ⟨x, hx, hsub⟩
  · obtain ⟨hcons, htwo, hwf, hle⟩ := reachInv_top hinv
    obtain ⟨hcount, hav⟩ := hcons hne
    refine ⟨?_, ?_, ?_, ?_⟩
    · intro _
      constructor
      · rw [count_mk, children_mk]
        simp only [List.map_append, List.sum_append]
        have := sum_map_eraseIdx Node.count n.children i1 default hi1
        omega
      · intro a v
        rw [av_mk, children_mk]
        simp only [List.map_append, List.sum_append]
        have hsum := sum_map_eraseIdx (fun x => avGet x.av a v) n.children i1 default hi1
        rw [hav a v]
        simp only at hsum
        have := hbav a v
        omega
    · intro _
      rw [children_mk, List.length_append]
      have h2 := htwo1 hbch
      omega
    · rw [av_mk]
      exact hwf
    · intro a v
      rw [av_mk, count_mk]
      exact hle a v
  · rw [children_mk] at hx
    rcases List.mem_append.mp hx with hx' | hx'
    · exact hinv k (Subnode.child (mem_of_mem_eraseIdx hx') hsub)
    · exact hinv k (Subnode.child (getD_mem default hi1)
        (Subnode.child hx' hsub))

/-- Main invariant of the driver: a successful `cobweb` run increments the
subtree root's count by exactly 1, adds the instance to its `av_counts`, and
preserves the reachable-state invariant. -/
theorem cobwebF_spec : ∀ (fuel : Nat) (n : Node) (inst : Instance) (t r : Node),
    instKeysOk inst → cobwebF fuel n inst = some (t, r) →
    t.count = n.count + 1 ∧ t.av = avIncInst n.av inst ∧
      (ReachInv n → ReachInv t) := by
  intro fuel
  induction fuel with
  | zero =>
    intro n inst t r _ h
    simp [cobwebF] at h
  | succ fuel ih =>
    intro n inst t r hk h
    rw [cobwebF] at h
    by_cases hch : n.children.length = 0
    · rw [if_pos hch] at h
      by_cases hfr : cu_for_fringe_split n inst ≤ min_cu
      · rw [if_pos hfr] at h
        simp only [Option.some.injEq, Prod.mk.injEq] at h
        obtain ⟨ht, hr⟩ := h
        subst ht
        refine ⟨rfl, rfl, fun hinv => ?_⟩
        obtain ⟨_, _, hwf, hle⟩ := reachInv_top hinv
        exact reachInv_leaf hwf hle hk
      · rw [if_neg hfr] at h
        have hpos : 0 < n.count := by
          rcases Nat.eq_zero_or_pos n.count with h0 | h0
          · exfalso
            apply hfr
            have := fringe_nonpos_of_count_zero n inst h0
            simpa [min_cu] using this
          · exact h0
        rw [if_pos hpos] at h
        simp only [Option.some.injEq, Prod.mk.injEq, List.singleton_append] at h
        obtain ⟨ht, hr⟩ := h
        subst ht
        refine ⟨rfl, rfl, fun hinv => ?_⟩
        obtain ⟨_, _, hwf, hle⟩ := reachInv_top hinv
        exact reachInv_fringe hwf hle hk hpos
    · rw [if_neg hch] at h
      simp only [] at h
      have hne : n.children ≠ [] := children_ne_nil_of_length hch
      have hi1 : (twoBest n inst).1.2 < n.children.length := twoBest_idx_lt hch
      by_cases hcu : (get_best_operation n inst (twoBest n inst).1 (twoBest n inst).2).1
          ≤ min_cu
      · rw [if_pos hcu] at h
        simp only [Option.some.injEq, Prod.mk.injEq] at h
        obtain ⟨ht, hr⟩ := h
        subst ht
        refine ⟨rfl, rfl, fun hinv => ?_⟩
        obtain ⟨_, _, hwf, hle⟩ := reachInv_top hinv
        exact reachInv_leaf hwf hle hk
      · rw [if_neg hcu] at h
        by_cases hbest : (get_best_operation n inst (twoBest n inst).1
            (twoBest n inst).2).2 = Op.best
        · rw [if_pos hbest] at h
          cases hrec : cobwebF fuel (n.children.getD (twoBest n inst).1.2 default) inst with
          | none => rw [hrec] at h; simp at h
          | some pr =>
            obtain ⟨c', r'⟩ := pr
            rw [hrec] at h
            simp only [Option.some.injEq, Prod.mk.injEq] at h
            obtain ⟨ht, hr⟩ := h
            subst ht
            obtain ⟨hic, hia, hii⟩ := ih _ inst c' r' hk hrec
            refine ⟨rfl, rfl, fun hinv => ?_⟩
            exact reachInv_best hinv hne hi1 hic hia
              (hii (reachInv_child (getD_mem default hi1) hinv)) hk
        · rw [if_neg hbest] at h
          by_cases hnew : (get_best_operation n inst (twoBest n inst).1
              (twoBest n inst).2).2 = Op.new
          · rw [if_pos hnew] at h
            simp only [Option.some.injEq, Prod.mk.injEq] at h
            obtain ⟨ht, hr⟩ := h
            subst ht
            refine ⟨rfl, rfl, fun hinv => ?_⟩
            exact reachInv_new hinv hne hk
          · rw [if_neg hnew] at h
            by_cases hmer : (get_best_operation n inst (twoBest n inst).1
                (twoBest n inst).2).2 = Op.merge
            · rw [if_pos hmer] at h
              obtain ⟨h2, p0, hb2⟩ := mem_bestOps_merge
                (get_best_operation_mem n inst (twoBest n inst).1 (twoBest n inst).2) hmer
              rw [hb2] at h
              have h' : (match cobwebF fuel
                  (Node.mk ((n.children.getD (twoBest n inst).1.2 default).count
                      + (n.children.getD p0.2 default).count)
                    (avAdd (n.children.getD (twoBest n inst).1.2 default).av
                      (n.children.getD p0.2 default).av)
                    [n.children.getD (twoBest n inst).1.2 default,
                     n.children.getD p0.2 default]) inst with
                | none => none
                | some (m', r2) =>
                  some (Node.mk (n.count + 1) (avIncInst n.av inst)
                    (((n.children.eraseIdx (twoBest n inst).1.2).eraseIdx
                      (if (twoBest n inst).1.2 < p0.2 then p0.2 - 1 else p0.2)) ++ [m']),
                    r2)) = some (t, r) := h
              obtain ⟨hi2, hne2⟩ := twoBest_snd_some hch hb2
              cases hrec : cobwebF fuel
                  (Node.mk ((n.children.getD (twoBest n inst).1.2 default).count
                      + (n.children.getD p0.2 default).count)
                    (avAdd (n.children.getD (twoBest n inst).1.2 default).av
                      (n.children.getD p0.2 default).av)
                    [n.children.getD (twoBest n inst).1.2 default,
                     n.children.getD p0.2 default]) inst with
              | none => rw [hrec] at h'; simp at h'
              | some pr =>
                obtain ⟨m', r'⟩ := pr
                rw [hrec] at h'
                simp only [Option.some.injEq, Prod.mk.injEq] at h'
                obtain ⟨ht, hr⟩ := h'
                subst ht
                obtain ⟨hic, hia, hii⟩ := ih _ inst m' r' hk hrec
                rw [count_mk] at hic
                rw [av_mk] at hia
                refine ⟨rfl, rfl, fun hinv => ?_⟩
                exact reachInv_merge_result hinv hne h2 hi1 hi2 (Ne.symm hne2) hic hia
                  (hii (reachInv_merged hinv hi1 hi2)) hk
            · rw [if_neg hmer] at h
              have hsplit : (get_best_operation n inst (twoBest n inst).1
                  (twoBest n inst).2).2 = Op.split := by
                rcases hop : (get_best_operation n inst (twoBest n inst).1
                    (twoBest n inst).2).2 <;> simp_all
              have hbch := children_ne_nil_of_length (mem_bestOps_split
                (get_best_operation_mem n inst (twoBest n inst).1 (twoBest n inst).2)
                hsplit)
              obtain ⟨hic, hia, hii⟩ := ih _ inst t r hk h
              have hsc : (Node.split n (twoBest n inst).1.2).count = n.count := rfl
              have hsa : (Node.split n (twoBest n inst).1.2).av = n.av := rfl
              rw [hsc] at hic
              rw [hsa] at hia
              exact ⟨hic, hia, fun hinv =>
                hii (reachInv_split hinv hne hi1 hbch)⟩

/-! ### Lemmas: `size` fuel suffices -/

theorem size_eq (n : Node) : size n = 1 + (n.children.map size).sum := by
  cases n with
  | mk c A ch => rw [size_mk, children_mk]

theorem size_lt_of_mem_children {k n : Node} (h : k ∈ n.children) : size k < size n := by
  cases n with
  | mk c A ch =>
    rw [children_mk] at h
    exact size_lt_of_mem h

theorem one_le_sum_map_size {l : List Node} (h : l ≠ []) : 1 ≤ (l.map size).sum := by
  cases l with
  | nil => exact absurd rfl h
  | cons x r =>
    simp only [List.map_cons, List.sum_cons]
    have := size_pos x
    omega

theorem cobwebF_isSome_of_size_le : ∀ (fuel : Nat) (n : Node) (inst : Instance),
    size n ≤ fuel → (cobwebF fuel n inst).isSome := by
  intro fuel
  induction fuel with
  | zero =>
    intro n inst h
    have := size_pos n
    omega
  | succ fuel ih =>
    intro n inst h
    rw [cobwebF]
    by_cases hch : n.children.length = 0
    · rw [if_pos hch]
      by_cases hfr : cu_for_fringe_split n inst ≤ min_cu
      · rw [if_pos hfr]; simp
      · rw [if_neg hfr]; simp
    · rw [if_neg hch]
      simp only []
      have hne := children_ne_nil_of_length hch
      have hi1 : (twoBest n inst).1.2 < n.children.length := twoBest_idx_lt hch
      by_cases hcu : (get_best_operation n inst (twoBest n inst).1 (twoBest n inst).2).1
          ≤ min_cu
      · rw [if_pos hcu]; simp
      · rw [if_neg hcu]
        by_cases hbest : (get_best_operation n inst (twoBest n inst).1
            (twoBest n inst).2).2 = Op.best
        · rw [if_pos hbest]
          have hs : size (n.children.getD (twoBest n inst).1.2 default) ≤ fuel := by
            have := size_lt_of_mem_children (getD_mem default hi1)
            omega
          cases hrec : cobwebF fuel (n.children.getD (twoBest n inst).1.2 default) inst with
          | none =>
            have hcon := ih _ inst hs
            rw [hrec] at hcon
            simp at hcon
          | some pr =>
            obtain ⟨c', r'⟩ := pr
            simp
        · rw [if_neg hbest]
          by_cases hnew : (get_best_operation n inst (twoBest n inst).1
              (twoBest n inst).2).2 = Op.new
          · rw [if_pos hnew]; simp
          · rw [if_neg hnew]
            by_cases hmer : (get_best_operation n inst (twoBest n inst).1
                (twoBest n inst).2).2 = Op.merge
            · rw [if_pos hmer]
              obtain ⟨h2, p0, hb2⟩ := mem_bestOps_merge
                (get_best_operation_mem n inst (twoBest n inst).1 (twoBest n inst).2) hmer
              rw [hb2]
              obtain ⟨hi2, hne2⟩ := twoBest_snd_some hch hb2
              have hij : (twoBest n inst).1.2 ≠ p0.2 := Ne.symm hne2
              show (match cobwebF fuel
                  (Node.mk ((n.children.getD (twoBest n inst).1.2 default).count
                      + (n.children.getD p0.2 default).count)
                    (avAdd (n.children.getD (twoBest n inst).1.2 default).av
                      (n.children.getD p0.2 default).av)
                    [n.children.getD (twoBest n inst).1.2 default,
                     n.children.getD p0.2 default]) inst with
                | none => none
                | some (m', r2) =>
                  some (Node.mk (n.count + 1) (avIncInst n.av inst)
                    (((n.children.eraseIdx (twoBest n inst).1.2).eraseIdx
                      (if (twoBest n inst).1.2 < p0.2 then p0.2 - 1 else p0.2)) ++ [m']),
                    r2)).isSome
              have hs : size (Node.mk ((n.children.getD (twoBest n inst).1.2 default).count
                      + (n.children.getD p0.2 default).count)
                    (avAdd (n.children.getD (twoBest n inst).1.2 default).av
                      (n.children.getD p0.2 default).av)
                    [n.children.getD (twoBest n inst).1.2 default,
                     n.children.getD p0.2 default]) ≤ fuel := by
                rw [size_mk]
                simp only [List.map_cons, List.map_nil, List.sum_cons, List.sum_nil]
                have hsum := sum_map_erase2 size n.children (twoBest n inst).1.2 p0.2
                  default hij hi1 hi2
                have hrne : (n.children.eraseIdx (twoBest n inst).1.2).eraseIdx
                    (if (twoBest n inst).1.2 < p0.2 then p0.2 - 1 else p0.2) ≠ [] := by
                  intro hcc
                  have hl := length_erase2 n.children (twoBest n inst).1.2 p0.2 hij hi1 hi2
                  rw [hcc] at hl
                  simp only [List.length_nil] at hl
                  omega
                have hone := one_le_sum_map_size hrne
                have hsz := size_eq n
                omega
              cases hrec : cobwebF fuel
                  (Node.mk ((n.children.getD (twoBest n inst).1.2 default).count
                      + (n.children.getD p0.2 default).count)
                    (avAdd (n.children.getD (twoBest n inst).1.2 default).av
                      (n.children.getD p0.2 default).av)
                    [n.children.getD (twoBest n inst).1.2 default,
                     n.children.getD p0.2 default]) inst with
              | none =>
                have hcon := ih _ inst hs
                rw [hrec] at hcon
                simp at hcon
              | some pr =>
                obtain ⟨m', r'⟩ := pr
                simp
            · rw [if_neg hmer]
              have hsplit : (get_best_operation n inst (twoBest n inst).1
                  (twoBest n inst).2).2 = Op.split := by
                rcases hop : (get_best_operation n inst (twoBest n inst).1
                    (twoBest n inst).2).2 <;> simp_all
              apply ih
              have hb1 := size_eq (n.children.getD (twoBest n inst).1.2 default)
              have hsum := sum_map_eraseIdx size n.children (twoBest n inst).1.2 default hi1
              have hsz := size_eq n
              have hsp : size (Node.split n (twoBest n inst).1.2)
                  = 1 + ((n.children.eraseIdx (twoBest n inst).1.2).map size).sum
                    + (((n.children.getD (twoBest n inst).1.2 default).children.map
                        size).sum) := by
                unfold Node.split
                rw [size_mk, List.map_append, List.sum_append]
                omega
              omega

/-- `ifit` never takes the fallback: `size` fuel always succeeds, so `ifit`
is the value computed by the `cobweb` loop. -/
theorem ifit_spec (n : Node) (inst : Instance) (hk : instKeysOk inst) :
    (ifit n inst).1.count = n.count + 1 ∧ (ifit n inst).1.av = avIncInst n.av inst ∧
      (ReachInv n → ReachInv (ifit n inst).1) := by
  have hs := cobwebF_isSome_of_size_le (size n) n inst le_rfl
  obtain ⟨pr, hrec⟩ := Option.isSome_iff_exists.mp hs
  obtain ⟨t, r⟩ := pr
  unfold ifit
  rw [hrec]
  simpa using cobwebF_spec (size n) n inst t r hk hrec

theorem reachInv_fresh : ReachInv freshNode := by
  intro k hk'
  rw [subnode_of_leaf hk']
  refine ⟨?_, ?_, ?_, ?_⟩
  · intro hcc; simp [children_mk] at hcc
  · intro hcc; simp [children_mk] at hcc
  · rw [av_mk]
    exact WfAV_nil
  · intro a v
    rw [av_mk, count_mk, avGet_nil]

theorem reachInv_fitList (insts : List Instance) :
    ∀ (n : Node), (∀ i ∈ insts, instKeysOk i) → ReachInv n →
      ReachInv (fitList n insts) := by
  induction insts with
  | nil => intro n _ hinv; simpa [fitList] using hinv
  | cons i r ih =>
    intro n hks hinv
    have h1 : fitList n (i :: r) = fitList (ifit n i).1 r := by
      simp [fitList]
    rw [h1]
    exact ih _ (fun j hj => hks j (List.mem_cons_of_mem _ hj))
      ((ifit_spec n i (hks i (List.mem_cons_self _ _))).2.2 hinv)

/-! ### Lemmas: categorization -/

theorem categorizeF_spec : ∀ (fuel : Nat) (n : Node) (inst : Instance) (x : Node),
    categorizeF fuel n inst = some x → x.children = [] ∧ Subnode x n := by
  intro fuel
  induction fuel with
  | zero =>
    intro n inst x h
    simp [categorizeF] at h
  | succ fuel ih =>
    intro n inst x h
    rw [categorizeF] at h
    by_cases hch : n.children.length = 0
    · rw [if_pos hch] at h
      simp only [Option.some.injEq] at h
      subst h
      exact ⟨List.length_eq_zero.mp hch, Subnode.refl _⟩
    · rw [if_neg hch] at h
      have hspec := ih _ inst x h
      exact ⟨hspec.1,
        Subnode.child (getD_mem default (twoBest_idx_lt hch)) hspec.2⟩

theorem categorizeF_isSome_of_size_le : ∀ (fuel : Nat) (n : Node) (inst : Instance),
    size n ≤ fuel → (categorizeF fuel n inst).isSome := by
  intro fuel
  induction fuel with
  | zero =>
    intro n inst h
    have := size_pos n
    omega
  | succ fuel ih =>
    intro n inst h
    rw [categorizeF]
    by_cases hch : n.children.length = 0
    · rw [if_pos hch]; simp
    · rw [if_neg hch]
      apply ih
      have := size_lt_of_mem_children
        (getD_mem (l := n.children) default (@twoBest_idx_lt n inst hch))
      omega

theorem cobweb_categorize_spec (n : Node) (inst : Instance) :
    (cobweb_categorize n inst).children = [] ∧ Subnode (cobweb_categorize n inst) n := by
  have hs := categorizeF_isSome_of_size_le (size n) n inst le_rfl
  obtain ⟨x, hx⟩ := Option.isSome_iff_exists.mp hs
  unfold cobweb_categorize
  rw [hx]
  simpa using categorizeF_spec (size n) n inst x hx

/-! ### Lemmas: one `cobweb` step at a leaf, pruning step -/

theorem ifit_leaf_low (n : Node) (inst : Instance) (hch : n.children = [])
    (hfr : cu_for_fringe_split n inst ≤ min_cu) :
    ifit n inst = (Node.mk (n.count + 1) (avIncInst n.av inst) [],
      Node.mk (n.count + 1) (avIncInst n.av inst) []) := by
  unfold ifit
  obtain ⟨m, hm⟩ : ∃ m, size n = m + 1 := ⟨size n - 1, by have := size_pos n; omega⟩
  rw [hm, cobwebF, if_pos (by rw [hch]; rfl), if_pos hfr]
  rfl

theorem ifit_leaf_high (n : Node) (inst : Instance) (hch : n.children = [])
    (hfr : min_cu < cu_for_fringe_split n inst) :
    ifit n inst = (Node.mk (n.count + 1) (avIncInst n.av inst)
        [Node.mk n.count n.av [], Node.mk 1 (instAv inst) []],
      Node.mk 1 (instAv inst) []) := by
  have hpos : 0 < n.count := by
    rcases Nat.eq_zero_or_pos n.count with h0 | h0
    · exfalso
      have h1 := fringe_nonpos_of_count_zero n inst h0
      have h2 : cu_for_fringe_split n inst ≤ min_cu := by simpa [min_cu] using h1
      exact absurd hfr (not_lt.mpr h2)
    · exact h0
  unfold ifit
  obtain ⟨m, hm⟩ : ∃ m, size n = m + 1 := ⟨size n - 1, by have := size_pos n; omega⟩
  rw [hm, cobwebF, if_pos (by rw [hch]; rfl), if_neg (not_le.mpr hfr), if_pos hpos]
  rfl

theorem ifit_prune (n : Node) (inst : Instance) (hch : n.children ≠ [])
    (hcu : (get_best_operation n inst (twoBest n inst).1 (twoBest n inst).2).1 ≤ min_cu) :
    ifit n inst = (Node.mk (n.count + 1) (avIncInst n.av inst) [],
      Node.mk (n.count + 1) (avIncInst n.av inst) []) := by
  unfold ifit
  obtain ⟨m, hm⟩ : ∃ m, size n = m + 1 := ⟨size n - 1, by have := size_pos n; omega⟩
  rw [hm, cobwebF, if_neg (fun hcc => hch (List.length_eq_zero.mp hcc))]
  simp only []
  rw [if_pos hcu]
  rfl

/-! ### Lemmas: concrete evaluations -/

theorem fringe_red_fresh :
    cu_for_fringe_split freshNode [("color", "red")] ≤ min_cu := by
  norm_num +decide [cu_for_fringe_split, category_utility, expected_correct_guesses,
    avIncInst, avInc, avIncBy, instAv, upsert, freshNode, count_mk, av_mk, children_mk,
    min_cu]

theorem fringe_red_one :
    cu_for_fringe_split (.mk 1 [("color", [("red", 1)])] []) [("color", "red")]
      ≤ min_cu := by
  norm_num +decide [cu_for_fringe_split, category_utility, expected_correct_guesses,
    avIncInst, avInc, avIncBy, instAv, upsert, count_mk, av_mk, children_mk, min_cu]

theorem fringe_blue_redLeaf :
    min_cu < cu_for_fringe_split redLeaf [("color", "blue")] := by
  norm_num +decide [cu_for_fringe_split, category_utility, expected_correct_guesses,
    avIncInst, avInc, avIncBy, instAv, upsert, redLeaf, count_mk, av_mk, children_mk,
    min_cu]

theorem c3_twoBest : twoBest c3Node [] = ((0, 0), some (0, 1)) := by
  norm_num +decide [twoBest, childInsertCus, cu_for_insert, category_utility,
    expected_correct_guesses, avIncInst, c3Node, count_mk, av_mk, children_mk,
    List.enum, List.enumFrom, maxQ, List.indexOf_cons, List.range_succ]

theorem c3_gbo : get_best_operation c3Node [] (twoBest c3Node []).1 (twoBest c3Node []).2
    = (0, Op.new) := by
  rw [c3_twoBest]
  norm_num +decide [get_best_operation, bestOps, cu_for_new_child, category_utility,
    expected_correct_guesses, avIncInst, instAv, c3Node, count_mk, av_mk, children_mk,
    maxOpFrom, opLt, opRank]

theorem c3_new_cu : cu_for_new_child c3Node [] = 0 := by
  norm_num +decide [cu_for_new_child, category_utility, expected_correct_guesses,
    avIncInst, instAv, c3Node, count_mk, av_mk, children_mk]

/-! ### The claims -/

/-- C1. Count conservation: for every sequence of `ifit` calls applied to a
fresh tree (each instance being a dict, so with distinct attribute keys),
after each `ifit` returns, every node that has children has `count` equal to
the sum of its children's counts, and for every attribute/value pair the
node's stored count for that pair equals the sum of its children's stored
counts for that pair. Quantifying over all instance lists covers every
prefix, hence the state after each call. -/
theorem claim_C1_count_conservation (insts : List Instance)
    (hk : ∀ i ∈ insts, instKeysOk i) :
    conserved (fitList freshNode insts) := by
  intro k hsub
  exact ((reachInv_fitList insts freshNode hk reachInv_fresh) k hsub).1

theorem claim_C1_witness :
    (∀ i ∈ [[("color", "red")], [("color", "blue")]], instKeysOk i) ∧
    conserved (fitList freshNode [[("color", "red")], [("color", "blue")]]) := by
  have hk : ∀ i ∈ [[("color", "red")], [("color", "blue")]], instKeysOk i := by
    intro i hi
    unfold instKeysOk
    fin_cases hi <;> decide
  exact ⟨hk, claim_C1_count_conservation _ hk⟩

/-- C2. `expected_correct_guesses` returns the sum over all stored
attribute/value pairs of `(count(attr,val) / node.count) ^ 2`, and
`category_utility` returns 0 for a childless node and otherwise `(1/k)`
times the sum over the `k` children of
`(child.count / node.count) * (ecg(child) - ecg(node))`. -/
theorem claim_C2_utility_formulas (n : Node) :
    expected_correct_guesses n
      = (n.av.map (fun p =>
          (p.2.map (fun q => (((q.2 : Nat) : ℚ) / (n.count : ℚ)) ^ 2)).sum)).sum ∧
    category_utility n
      = (if n.children.length = 0 then 0 else
          (1 / (n.children.length : ℚ)) *
            (n.children.map (fun c => ((c.count : ℚ) / (n.count : ℚ)) *
              (expected_correct_guesses c - expected_correct_guesses n))).sum) := by
  refine ⟨ecg_eq_sum n, ?_⟩
  by_cases hch : n.children.length = 0
  · rw [if_pos hch]
    unfold category_utility
    rw [if_pos hch]
  · rw [if_neg hch, category_utility_eq_sum n hch]
    rw [div_eq_mul_inv, one_div, mul_comm]

/-- C3, counterexample. At a two-child root whose children carry identical
(empty) statistics and the empty instance, the `best` candidate and the
`new` candidate have exactly the same utility, yet `get_best_operation`
chooses `new`, not `best`: Python's descending sort of `(utility, name)`
tuples breaks ties by the *larger* name string, and `'new' > 'best'`. -/
theorem claim_C3_counterexample :
    (twoBest c3Node []).1.1 = cu_for_new_child c3Node [] ∧
    (get_best_operation c3Node [] (twoBest c3Node []).1 (twoBest c3Node []).2).2
      = Op.new ∧ Op.new ≠ Op.best := by
  refine ⟨?_, ?_, by decide⟩
  · rw [c3_twoBest, c3_new_cu]
  · rw [c3_gbo]

/-- C3, amended. `get_best_operation` returns a candidate of its candidate
list that is maximal in the lexicographic order on `(utility, name)`: the
strictly greatest utility wins, and an exact utility tie is broken by the
lexicographic order of the operation-name strings with the *later* name
winning (descending sort), i.e. priority `split > new > merge > best`; in
particular, when `best` ties with any other candidate the other operation
is chosen. -/
theorem claim_C3_amended_tie_break (n : Node) (inst : Instance) (b1 : ℚ × Nat)
    (b2 : Option (ℚ × Nat)) :
    get_best_operation n inst b1 b2 ∈ bestOps n inst b1 b2 ∧
    ∀ x ∈ bestOps n inst b1 b2, x = get_best_operation n inst b1 b2 ∨
      opLt x (get_best_operation n inst b1 b2) :=
  ⟨get_best_operation_mem n inst b1 b2, get_best_operation_max n inst b1 b2⟩

theorem claim_C3_witness :
    (0, Op.best) ∈ bestOps c3Node [] (0, 0) (some (0, 1)) ∧
    ((0, Op.best) = get_best_operation c3Node [] (0, 0) (some (0, 1)) ∨
      opLt (0, Op.best) (get_best_operation c3Node [] (0, 0) (some (0, 1)))) := by
  have hmem : (0, Op.best) ∈ bestOps c3Node [] (0, 0) (some (0, 1)) := by
    rw [bestOps_cons]
    exact List.mem_cons_self _ _
  exact ⟨hmem, (claim_C3_amended_tie_break c3Node [] (0, 0) (some (0, 1))).2 _ hmem⟩

/-- C4. At an internal node, when the winning utility of
`get_best_operation` does not exceed `min_cu` (0.0 by default), the
instance's counts are added to the node, all children are removed, and the
now-childless node is what `ifit` returns. -/
theorem claim_C4_prune_on_low_utility (n : Node) (inst : Instance)
    (hch : n.children ≠ [])
    (hcu : (get_best_operation n inst (twoBest n inst).1 (twoBest n inst).2).1 ≤ min_cu) :
    ifit n inst = (Node.mk (n.count + 1) (avIncInst n.av inst) [],
      Node.mk (n.count + 1) (avIncInst n.av inst) []) :=
  ifit_prune n inst hch hcu

theorem claim_C4_witness :
    c3Node.children ≠ [] ∧
    (get_best_operation c3Node [] (twoBest c3Node []).1 (twoBest c3Node []).2).1
      ≤ min_cu ∧
    ifit c3Node [] = (.mk 3 [] [], .mk 3 [] []) := by
  have h1 : c3Node.children ≠ [] := by simp [c3Node, children_mk]
  have h2 : (get_best_operation c3Node [] (twoBest c3Node []).1 (twoBest c3Node []).2).1
      ≤ min_cu := by
    rw [c3_gbo]
    norm_num [min_cu]
  exact ⟨h1, h2, claim_C4_prune_on_low_utility c3Node [] h1 h2⟩

/-- C5. At a childless node: when the fringe-split utility does not beat
`min_cu`, the leaf absorbs the instance and is returned, still childless;
otherwise the leaf's prior statistics are copied into a new first child, the
leaf absorbs the instance, and a second new child holding only the instance
is created and returned, leaving the former leaf with exactly two
children. -/
theorem claim_C5_leaf_behavior (n : Node) (inst : Instance) (hch : n.children = []) :
    (cu_for_fringe_split n inst ≤ min_cu →
      ifit n inst = (Node.mk (n.count + 1) (avIncInst n.av inst) [],
        Node.mk (n.count + 1) (avIncInst n.av inst) [])) ∧
    (min_cu < cu_for_fringe_split n inst →
      ifit n inst = (Node.mk (n.count + 1) (avIncInst n.av inst)
          [Node.mk n.count n.av [], Node.mk 1 (instAv inst) []],
        Node.mk 1 (instAv inst) [])) :=
  ⟨fun h => ifit_leaf_low n inst hch h, fun h => ifit_leaf_high n inst hch h⟩

theorem claim_C5_witness :
    (freshNode.children = [] ∧
      cu_for_fringe_split freshNode [("color", "red")] ≤ min_cu ∧
      ifit freshNode [("color", "red")]
        = (.mk 1 [("color", [("red", 1)])] [], .mk 1 [("color", [("red", 1)])] [])) ∧
    (redLeaf.children = [] ∧
      min_cu < cu_for_fringe_split redLeaf [("color", "blue")] ∧
      ifit redLeaf [("color", "blue")]
        = (.mk 3 [("color", [("red", 2), ("blue", 1)])]
            [.mk 2 [("color", [("red", 2)])] [], .mk 1 [("color", [("blue", 1)])] []],
          .mk 1 [("color", [("blue", 1)])] [])) := by
  refine ⟨⟨rfl, fringe_red_fresh, ?_⟩, ⟨rfl, fringe_blue_redLeaf, ?_⟩⟩
  · exact (claim_C5_leaf_behavior freshNode [("color", "red")] rfl).1 fringe_red_fresh
  · exact (claim_C5_leaf_behavior redLeaf [("color", "blue")] rfl).2 fringe_blue_redLeaf

/-- C6. Starting from a freshly constructed tree, `ifit {"color": "red"}`,
then `ifit {"color": "red"}`, then `ifit {"color": "blue"}` yields a root
of count 3, with at least two children, whose probability for
`color = red` is 2/3. -/
theorem claim_C6_scenario :
    (fitList freshNode [[("color", "red")], [("color", "red")], [("color", "blue")]]).count
      = 3 ∧
    2 ≤ (fitList freshNode
      [[("color", "red")], [("color", "red")], [("color", "blue")]]).children.length ∧
    get_probability
      (fitList freshNode [[("color", "red")], [("color", "red")], [("color", "blue")]])
      "color" "red" = 2 / 3 := by
  have e1 : ifit freshNode [("color", "red")]
      = (.mk 1 [("color", [("red", 1)])] [], .mk 1 [("color", [("red", 1)])] []) :=
    ifit_leaf_low freshNode [("color", "red")] rfl fringe_red_fresh
  have e2 : ifit (.mk 1 [("color", [("red", 1)])] []) [("color", "red")]
      = (redLeaf, redLeaf) :=
    ifit_leaf_low (.mk 1 [("color", [("red", 1)])] []) [("color", "red")] rfl
      fringe_red_one
  have e3 : ifit redLeaf [("color", "blue")]
      = (.mk 3 [("color", [("red", 2), ("blue", 1)])]
          [.mk 2 [("color", [("red", 2)])] [], .mk 1 [("color", [("blue", 1)])] []],
        .mk 1 [("color", [("blue", 1)])] []) :=
    ifit_leaf_high redLeaf [("color", "blue")] rfl fringe_blue_redLeaf
  have hfit : fitList freshNode [[("color", "red")], [("color", "red")], [("color", "blue")]]
      = (ifit (ifit (ifit freshNode [("color", "red")]).1 [("color", "red")]).1
          [("color", "blue")]).1 := rfl
  rw [hfit, e1]
  simp only []
  rw [e2]
  simp only []
  rw [e3]
  refine ⟨rfl, by simp [children_mk], ?_⟩
  norm_num +decide [get_probability, lookupOpt, av_mk, count_mk]

/-- C7. Merging the children at two distinct indices and then immediately
splitting the merged node (which sits at the last index) restores both
children as direct children of the node, with their `count` and
attribute/value statistics exactly as before the merge. -/
theorem claim_C7_merge_split_roundtrip (n : Node) (i j : Nat) (hij : i ≠ j)
    (hi : i < n.children.length) (hj : j < n.children.length) :
    Node.split (Node.merge n i j) (n.children.length - 2)
      = Node.mk n.count n.av
          (((n.children.eraseIdx i).eraseIdx (if i < j then j - 1 else j))
            ++ [n.children.getD i default, n.children.getD j default]) ∧
    n.children.getD i default
      ∈ (Node.split (Node.merge n i j) (n.children.length - 2)).children ∧
    n.children.getD j default
      ∈ (Node.split (Node.merge n i j) (n.children.length - 2)).children := by
  have hlen : ((n.children.eraseIdx i).eraseIdx (if i < j then j - 1 else j)).length
      = n.children.length - 2 := length_erase2 n.children i j hij hi hj
  have hkey : Node.split (Node.merge n i j) (n.children.length - 2)
      = Node.mk n.count n.av
          (((n.children.eraseIdx i).eraseIdx (if i < j then j - 1 else j))
            ++ [n.children.getD i default, n.children.getD j default]) := by
    unfold Node.merge Node.split
    rw [children_mk, count_mk, av_mk]
    rw [← hlen]
    rw [List.eraseIdx_append_of_length_le (le_refl _)]
    simp only [Nat.sub_self, List.eraseIdx_cons_zero, List.append_nil]
    have hget : (((n.children.eraseIdx i).eraseIdx (if i < j then j - 1 else j)) ++
        [Node.mk ((n.children.getD i default).count + (n.children.getD j default).count)
          (avAdd (n.children.getD i default).av (n.children.getD j default).av)
          [n.children.getD i default, n.children.getD j default]]).getD
          ((n.children.eraseIdx i).eraseIdx (if i < j then j - 1 else j)).length default
        = Node.mk ((n.children.getD i default).count + (n.children.getD j default).count)
          (avAdd (n.children.getD i default).av (n.children.getD j default).av)
          [n.children.getD i default, n.children.getD j default] := by
      rw [getD_eq_getElem _ _ _ (by
        rw [List.length_append, List.length_cons, List.length_nil]
        omega)]
      exact List.getElem_concat_length _ _ _ rfl _
    rw [hget, children_mk]
  refine ⟨hkey, ?_, ?_⟩
  · rw [hkey, children_mk]
    simp
  · rw [hkey, children_mk]
    simp

theorem claim_C7_witness :
    (0 : Nat) ≠ 1 ∧ 0 < abNode.children.length ∧ 1 < abNode.children.length ∧
    Node.split (Node.merge abNode 0 1) (abNode.children.length - 2)
      = Node.mk 2 [("a", [("x", 1), ("y", 1)])]
          [.mk 1 [("a", [("x", 1)])] [], .mk 1 [("a", [("y", 1)])] []] := by
  refine ⟨by decide, by simp [abNode, children_mk], by simp [abNode, children_mk], ?_⟩
  have h := (claim_C7_merge_split_roundtrip abNode 0 1 (by decide)
    (by simp [abNode, children_mk]) (by simp [abNode, children_mk])).1
  rw [h]
  rfl

/-- C8. `cobweb_categorize` terminates at a childless node that is a node of
the given tree. The embedding is functional, so the categorization cannot
mutate any count (the tree is taken and kept by value), and repeated calls
with the same node and instance are the same value — what remains to prove
is that the descent reaches a leaf of the same tree. -/
theorem claim_C8_categorize_leaf (n : Node) (inst : Instance) :
    (cobweb_categorize n inst).children = [] ∧
    Subnode (cobweb_categorize n inst) n :=
  cobweb_categorize_spec n inst

/-- C9. `two_best_children` on a childless node fails with the
`"No children!"` error; on a node with at least one child it succeeds and
its first component is the (index of the) child with the highest
`cu_for_insert`, carrying exactly that utility. -/
theorem claim_C9_two_best_children (n : Node) (inst : Instance) :
    (n.children = [] → two_best_children n inst = .error "No children!") ∧
    (n.children ≠ [] →
      two_best_children n inst = .ok (twoBest n inst) ∧
      (twoBest n inst).1.2 < n.children.length ∧
      (twoBest n inst).1.1 = cu_for_insert n (twoBest n inst).1.2 inst ∧
      ∀ j < n.children.length, cu_for_insert n j inst ≤ (twoBest n inst).1.1) := by
  constructor
  · intro hch
    unfold two_best_children
    rw [if_pos (by rw [hch]; rfl)]
  · intro hch
    have hlen : n.children.length ≠ 0 := fun hcc => hch (List.length_eq_zero.mp hcc)
    refine ⟨?_, twoBest_idx_lt hlen, twoBest_cu_eq hlen, fun j hj => twoBest_cu_le hj⟩
    unfold two_best_children
    rw [if_neg hlen]

theorem claim_C9_witness :
    two_best_children freshNode [] = .error "No children!" ∧
    (two_best_children c3Node [] = .ok (twoBest c3Node []) ∧
      (twoBest c3Node []).1.2 < c3Node.children.length ∧
      (twoBest c3Node []).1.1 = cu_for_insert c3Node (twoBest c3Node []).1.2 [] ∧
      ∀ j < c3Node.children.length,
        cu_for_insert c3Node j [] ≤ (twoBest c3Node []).1.1) :=
  ⟨(claim_C9_two_best_children freshNode []).1 rfl,
   (claim_C9_two_best_children c3Node []).2 (by simp [c3Node, children_mk])⟩

/-- C10. After any sequence of `ifit` calls (on dict instances) starting
from a freshly constructed single-node tree, every node that has children
has at least two children. -/
theorem claim_C10_at_least_two_children (insts : List Instance)
    (hk : ∀ i ∈ insts, instKeysOk i) :
    branchy (fitList freshNode insts) := by
  intro k hsub
  exact ((reachInv_fitList insts freshNode hk reachInv_fresh) k hsub).2.1

theorem claim_C10_witness :
    (∀ i ∈ [[("color", "red")], [("color", "red")], [("color", "blue")]], instKeysOk i) ∧
    branchy (fitList freshNode
      [[("color", "red")], [("color", "red")], [("color", "blue")]]) := by
  have hk : ∀ i ∈ [[("color", "red")], [("color", "red")], [("color", "blue")]],
      instKeysOk i := by
    intro i hi
    unfold instKeysOk
    fin_cases hi <;> decide
  exact ⟨hk, claim_C10_at_least_two_children _ hk⟩
